import Mathlib

/-!
# The comment lexer of `css/lexer.go` and the asset server of `assets.go`

A shallow embedding of the lexer (`next`, `backup`, `emit`, `emitPrev`, `errorf`,
`lexText`, `lexComment`, `run`, `nextItem`) over Go strings seen as byte lists, and
of `Init` and `serveAssets` over a model of the handlers and muxes of `net/http`,
followed by the properties of the token stream and of the registered handler.

Conventions of the embedding:

* a Go `string` is a list of bytes (`GoString`); it need not be valid UTF-8;
* Go `int` values (`pos`, `start`, `width`, `lastPos`, token positions) are `Int`;
* the unbuffered channel `items` is the queue of items sent and not yet received,
  together with a flag telling whether `run` has closed it;
* the unbounded loops (`for` in `lexText`, the state loop of `run`) take a fuel
  argument and return `none` when it runs out; `fuel_suffices` shows that the fuel
  given by `scanFuel` is never exhausted.
-/

namespace Css

/-! ## Go strings -/

/-- A byte of a Go string. -/
abbrev Byte := Fin 256

/-- A Go `string`: a sequence of bytes. -/
abbrev GoString := List Byte

/-- The bytes of an ASCII string literal of the source. -/
def ascii (s : String) : GoString := s.data.map (fun c => Fin.ofNat c.toNat)

/-- Go's `s[lo:hi]`.  Go panics unless `0 ≤ lo ≤ hi ≤ len(s)`; inside that range
this is the same slice. -/
def slice (s : GoString) (lo hi : Int) : GoString :=
  (s.drop lo.toNat).take (hi - lo).toNat

/-- Go's `s[lo:]`.  Go panics unless `0 ≤ lo ≤ len(s)`. -/
def sliceFrom (s : GoString) (lo : Int) : GoString := s.drop lo.toNat

/-- Go's `strings.HasPrefix(s, p)`: `len(s) >= len(p) && s[:len(p)] == p`. -/
def hasPrefix (s p : GoString) : Bool :=
  decide (p.length ≤ s.length) && (s.take p.length == p)

/-- The offset of the first occurrence of `sep` in `s`, when there is one. -/
def indexOf (s sep : GoString) : Option Nat :=
  match s with
  | [] => if hasPrefix [] sep then some 0 else none
  | b :: t =>
    if hasPrefix (b :: t) sep then some 0
    else (indexOf t sep).map (· + 1)

/-- Go's `strings.Index(s, sep)`: the offset of the first occurrence of `sep` in `s`,
or `-1` when `sep` does not occur. -/
def Index (s sep : GoString) : Int :=
  match indexOf s sep with
  | some i => (i : Int)
  | none => -1

/-! ## `unicode/utf8.DecodeRuneInString` -/

/-- The constant `utf8.RuneError`. -/
def RuneError : Int := 0xFFFD

/-- The classes of `utf8.first`, the table indexed by the first byte of a sequence:
the high nibble selects the accept range of the second byte (`0xF` for the one-byte
cases), the low nibble is the length of the sequence. -/
def first (b : Nat) : Nat :=
  if b < 0x80 then 0xF0        -- as: ASCII
  else if b < 0xC2 then 0xF1   -- xx: invalid
  else if b < 0xE0 then 0x02   -- s1
  else if b = 0xE0 then 0x13   -- s2
  else if b < 0xED then 0x03   -- s3
  else if b = 0xED then 0x23   -- s4
  else if b < 0xF0 then 0x03   -- s3
  else if b = 0xF0 then 0x34   -- s5
  else if b < 0xF4 then 0x04   -- s6
  else if b = 0xF4 then 0x44   -- s7
  else 0xF1                    -- xx

/-- The table `utf8.acceptRanges`: bounds on the second byte of a sequence. -/
def acceptRanges (i : Nat) : Nat × Nat :=
  match i with
  | 0 => (0x80, 0xBF)
  | 1 => (0xA0, 0xBF)
  | 2 => (0x80, 0x9F)
  | 3 => (0x90, 0xBF)
  | 4 => (0x80, 0x8F)
  | _ => (0, 0)

/-- The byte `s[i]` as a number (`0` past the end, where Go is never asked). -/
def byteAt (s : GoString) (i : Nat) : Nat := (s.getD i 0).val

/-- Go's `utf8.DecodeRuneInString`: the first rune of `s` and its width in bytes;
`(RuneError, 0)` on the empty string and `(RuneError, 1)` on an invalid encoding.
The masks `b & 0x1F`, `b & 0x0F`, `b & 0x07`, `b & 0x3F` are written `b % 32`,
`b % 16`, `b % 8`, `b % 64`, and the shifted fields, which do not overlap, are
added. -/
def DecodeRuneInString (s : GoString) : Int × Int :=
  let n := s.length
  if n < 1 then (RuneError, 0)
  else
    let s0 := byteAt s 0
    let x := first s0
    if x ≥ 0xF0 then (if x = 0xF0 then (s0 : Int) else RuneError, 1)
    else
      let sz := x % 8
      let accept := acceptRanges (x / 16)
      if n < sz then (RuneError, 1)
      else
        let s1 := byteAt s 1
        if s1 < accept.1 ∨ accept.2 < s1 then (RuneError, 1)
        else if sz ≤ 2 then (((s0 % 32 * 64 + s1 % 64 : Nat) : Int), 2)
        else
          let s2 := byteAt s 2
          if s2 < 0x80 ∨ 0xBF < s2 then (RuneError, 1)
          else if sz ≤ 3 then
            (((s0 % 16 * 4096 + s1 % 64 * 64 + s2 % 64 : Nat) : Int), 3)
          else
            let s3 := byteAt s 3
            if s3 < 0x80 ∨ 0xBF < s3 then (RuneError, 1)
            else
              (((s0 % 8 * 262144 + s1 % 64 * 4096 + s2 % 64 * 64 + s3 % 64 : Nat) : Int), 4)

/-! ## Items and the lexer state -/

/-- The constant `eof`. -/
def eof : Int := -1

/-- The type `itemType`; the constructors are listed in the order of the `iota`
block, so `itemError` is the zero value. -/
inductive itemType where
  | itemError
  | itemEOF
  | itemText
  | itemSpace
  | itemComment
deriving DecidableEq, Repr

open itemType

/-- The constant `startComment`. -/
def startComment : GoString := ascii "/*"

/-- The constant `endComment`. -/
def endComment : GoString := ascii "*/"

/-- The struct `item`: a token returned from the scanner. -/
structure item where
  typ : itemType
  pos : Int
  val : GoString
deriving DecidableEq, Repr

/-- The state functions a `stateFn` value can hold in this program; the nil
`stateFn` is `none : Option stateFn`. -/
inductive stateFn where
  | lexText
  | lexComment
deriving DecidableEq, Repr

/-- The struct `lexer`.  `items` is the channel: the items sent and not yet
received, oldest first; `closed` tells whether the channel has been closed. -/
structure lexer where
  name : GoString
  input : GoString
  state : Option stateFn
  pos : Int
  start : Int
  width : Int
  lastPos : Int
  items : List item
  closed : Bool
deriving DecidableEq, Repr

/-- The send `l.items <- it`. -/
def send (l : lexer) (it : item) : lexer := { l with items := l.items ++ [it] }

/-- The method `next`: returns the next rune in the input. -/
def next (l : lexer) : lexer × Int :=
  if l.pos ≥ (l.input.length : Int) then ({ l with width := 0 }, eof)
  else
    let rw := DecodeRuneInString (sliceFrom l.input l.pos)
    ({ l with width := rw.2, pos := l.pos + rw.2 }, rw.1)

/-- The method `backup`: steps back one rune. -/
def backup (l : lexer) : lexer := { l with pos := l.pos - l.width }

/-- The method `peek`: returns but does not consume the next rune. -/
def peek (l : lexer) : lexer × Int :=
  let r := next l
  (backup r.1, r.2)

/-- The method `emit`: passes an item back to the client. -/
def emit (l : lexer) (t : itemType) : lexer :=
  let l1 := send l ⟨t, l.start, slice l.input l.start l.pos⟩
  { l1 with start := l1.pos }

/-- The method `emitPrev`: passes an item one position back to the client. -/
def emitPrev (l : lexer) (t : itemType) : lexer :=
  let l1 := backup l
  if l1.pos > l1.start then
    let l2 := send l1 ⟨t, l1.start, slice l1.input l1.start l1.pos⟩
    { l2 with start := l2.pos }
  else l1

/-- The method `ignore`: skips over the pending input before this point. -/
def ignore (l : lexer) : lexer := { l with start := l.pos }

/-- The method `errorf` called with a constant message: sends an error item and
returns the nil state. -/
def errorf (l : lexer) (msg : GoString) : lexer × Option stateFn :=
  (send l ⟨itemError, l.start, msg⟩, none)

/-- The state function `lexText`.  Each turn of its `for` loop takes one unit of
fuel. -/
def lexText : Nat → lexer → Option (lexer × Option stateFn)
  | 0, _ => none
  | fuel + 1, l =>
    let r := next l
    if r.2 = eof then
      -- break LOOP
      let l1 := if r.1.pos > r.1.start then emit r.1 itemText else r.1
      some (emit l1 itemEOF, none)
    else if r.2 = 47 then
      -- case '/'
      some (emitPrev r.1 itemText, some stateFn.lexComment)
    else lexText fuel r.1

/-- The state function `lexComment`. -/
def lexComment (l : lexer) : lexer × Option stateFn :=
  if ! hasPrefix (sliceFrom l.input l.pos) startComment then
    errorf l (ascii "invalid comment")
  else
    let i := Index (sliceFrom l.input l.pos) endComment
    if i < 0 then errorf l (ascii "unclosed comment")
    else
      let l1 := { l with pos := l.pos + (i + (endComment.length : Int)) }
      (emit l1 itemComment, some stateFn.lexText)

/-- The call `f(l)` of a state function. -/
def stateFn.call (f : stateFn) (fuel : Nat) (l : lexer) : Option (lexer × Option stateFn) :=
  match f with
  | stateFn.lexText => Css.lexText fuel l
  | stateFn.lexComment => some (Css.lexComment l)

/-- The loop `for ...; l.state != nil; { l.state = l.state(l) }` of `run`.  Each
call of a state function takes one unit of fuel and hands the rest to the call. -/
def runLoop : Nat → lexer → Option lexer
  | 0, l =>
    match l.state with
    | none => some l
    | some _ => none
  | fuel + 1, l =>
    match l.state with
    | none => some l
    | some f =>
      match f.call fuel l with
      | none => none
      | some r => runLoop fuel { r.1 with state := r.2 }

/-- The method `run`: runs the state machine from `lexText` and closes the channel
when it stops (`defer close(l.items)`). -/
def run (fuel : Nat) (l : lexer) : Option lexer :=
  (runLoop fuel { l with state := some stateFn.lexText }).map
    (fun l1 => { l1 with closed := true })

/-- The struct built by `newLexer`, before `go l.run()` starts. -/
def newLexer (name input : GoString) : lexer :=
  { name := name, input := input, state := none, pos := 0, start := 0, width := 0,
    lastPos := 0, items := [], closed := false }

/-- The zero value of `item`, which a receive from a closed, drained channel
yields. -/
def zeroItem : item := ⟨itemError, 0, []⟩

/-- The method `nextItem`: receives the next item and records its position.  A
receive from an empty channel that is not closed blocks (`none`). -/
def nextItem (l : lexer) : Option (item × lexer) :=
  match l.items with
  | it :: rest => some (it, { l with items := rest, lastPos := it.pos })
  | [] =>
    if l.closed then some (zeroItem, { l with lastPos := zeroItem.pos })
    else none

/-- Fuel that `run` never exhausts on `input` (see `fuel_suffices`). -/
def scanFuel (input : GoString) : Nat := 2 * input.length + 2

/-- The items sent on the channel, in order, by the scan that `newLexer name input`
starts. -/
def scan (name input : GoString) : List item :=
  match run (scanFuel input) (newLexer name input) with
  | some l => l.items
  | none => []

/-! ## The token stream, described on the input alone -/

/-- The length of the longest prefix of `s` without the byte `/`. -/
def textLen : GoString → Nat
  | [] => 0
  | b :: t => if b = 47 then 0 else textLen t + 1

/-- The text item for the pending bytes `t` at offset `off`: none when `t` is empty. -/
def textItem (off : Nat) (t : GoString) : List item :=
  if t = [] then [] else [⟨itemText, (off : Int), t⟩]

/-- The items of a scan that enters `lexText` at offset `off` with nothing pending
and `s` left to read (`runLoop_lexText` shows that `run` sends exactly these). -/
def tokensFrom (off : Nat) (s : GoString) : List item :=
  let n := textLen s
  if h : s.drop n = [] then
    textItem off (s.take n) ++ [⟨itemEOF, ((off + n : Nat) : Int), []⟩]
  else if ¬ hasPrefix (s.drop n) startComment then
    textItem off (s.take n) ++ [⟨itemError, ((off + n : Nat) : Int), ascii "invalid comment"⟩]
  else
    match indexOf (s.drop n) endComment with
    | none =>
      textItem off (s.take n) ++ [⟨itemError, ((off + n : Nat) : Int), ascii "unclosed comment"⟩]
    | some i =>
      textItem off (s.take n) ++
        ⟨itemComment, ((off + n : Nat) : Int), (s.drop n).take (i + 2)⟩ ::
          tokensFrom (off + n + (i + 2)) ((s.drop n).drop (i + 2))
termination_by s.length
decreasing_by
  have h1 : 0 < (s.drop n).length := List.length_pos.mpr h
  simp only [List.length_drop] at h1 ⊢
  omega

/-! ## Vocabulary of the properties -/

/-- A terminal token: `itemEOF` or `itemError`. -/
def isTerminal (t : item) : Bool := t.typ == itemEOF || t.typ == itemError

/-- A token that carries input text: `itemText` or `itemComment`. -/
def isValue (t : item) : Bool := t.typ == itemText || t.typ == itemComment

/-- The concatenation, in order, of the values of the `itemText` and `itemComment`
tokens of a sequence. -/
def concatVals : List item → GoString
  | [] => []
  | t :: ts => (if isValue t then t.val else []) ++ concatVals ts

/-- The kind of the last token of a sequence. -/
def lastTyp (toks : List item) : Option itemType := toks.getLast?.map item.typ

/-- A complete comment: it begins with `startComment`, and the first `endComment`
found searching from its first byte is its last two bytes. -/
def isComment (c : GoString) : Prop :=
  hasPrefix c startComment = true ∧ Index c endComment + 2 = (c.length : Int)

instance (c : GoString) : Decidable (isComment c) := by
  unfold isComment; infer_instance

/-- The tokens `toks` tile `s` from offset `off`: each token starts where its
predecessor ends, a text or comment token carries the bytes of `s` that it covers,
and a token of another kind is the last one. -/
def Tiles : Nat → GoString → List item → Prop
  | _, _, [] => True
  | off, s, t :: ts =>
    t.pos = (off : Int) ∧
      if isValue t then
        t.val = s.take t.val.length ∧ t.val.length ≤ s.length ∧
          Tiles (off + t.val.length) (s.drop t.val.length) ts
      else ts = []

/-- The calls `nextItem` made `n` times in a row: the items returned and the lexer
left; `none` if one of the calls blocks for ever. -/
def nextItems : Nat → lexer → Option (List item × lexer)
  | 0, l => some ([], l)
  | n + 1, l =>
    match nextItem l with
    | none => none
    | some r =>
      match nextItems n r.2 with
      | none => none
      | some rs => some (r.1 :: rs.1, rs.2)

/-- The value of an `itemType` constant, as the `iota` block assigns it. -/
def itemType.code : itemType → Int
  | itemError => 0
  | itemEOF => 1
  | itemText => 2
  | itemSpace => 3
  | itemComment => 4

/-- The token `t` with its position increased by `d`. -/
def shift (d : Nat) (t : item) : item := { t with pos := t.pos + (d : Int) }

/-- The shape of a comment value: it begins with `startComment`, its last two bytes
are `endComment`, and `endComment` occurs at no other offset. -/
def wellShaped (v : GoString) : Prop :=
  hasPrefix v startComment = true ∧ v.drop (v.length - 2) = endComment ∧
    ∀ j : Nat, hasPrefix (v.drop j) endComment = true → j + 2 = v.length

/-! ## The states of a scan -/

/-- The cursor invariant `0 <= start <= pos <= len(input)`. -/
def cursorOk (l : lexer) : Prop :=
  0 ≤ l.start ∧ l.start ≤ l.pos ∧ l.pos ≤ (l.input.length : Int)

instance (l : lexer) : Decidable (cursorOk l) := by
  unfold cursorOk; infer_instance

/-- The invariant of the states of a scan of `input`: the lexer still reads `input`
and its cursor satisfies `cursorOk`. -/
def scanInv (input : GoString) (l : lexer) : Prop := l.input = input ∧ cursorOk l

/-- The lexer states that a call `lexText(l)` goes through, in order: the state
before and after each call of `next`, the state inside `emitPrev` after its
`backup` (where the slice is taken), and the state after each call of `emitPrev`
and `emit`.  It follows `lexText` branch by branch. -/
def lexTextStates : Nat → lexer → Option (List lexer)
  | 0, _ => none
  | fuel + 1, l =>
    let r := next l
    if r.2 = eof then
      if r.1.pos > r.1.start then
        some [l, r.1, emit r.1 itemText, emit (emit r.1 itemText) itemEOF]
      else some [l, r.1, emit r.1 itemEOF]
    else if r.2 = 47 then
      some [l, r.1, backup r.1, emitPrev r.1 itemText]
    else (lexTextStates fuel r.1).map (fun sts => l :: sts)

/-- The lexer states that a call `lexComment(l)` goes through, in order: the state
on entry, which is the state before `errorf` when the comment is malformed, the
state after `errorf`, or else the state before `emit` (with `pos` moved behind the
comment) and the state after `emit`. -/
def lexCommentStates (l : lexer) : List lexer :=
  if ! hasPrefix (sliceFrom l.input l.pos) startComment then
    [l, (errorf l (ascii "invalid comment")).1]
  else
    let i := Index (sliceFrom l.input l.pos) endComment
    if i < 0 then [l, (errorf l (ascii "unclosed comment")).1]
    else
      let l1 := { l with pos := l.pos + (i + (endComment.length : Int)) }
      [l, l1, emit l1 itemComment]

/-- The states that the call `f(l)` of a state function goes through. -/
def stateFn.callStates (f : stateFn) (fuel : Nat) (l : lexer) : Option (List lexer) :=
  match f with
  | stateFn.lexText => lexTextStates fuel l
  | stateFn.lexComment => some (lexCommentStates l)

/-- The lexer states that the loop of `run` goes through, in order: the states of
each call of a state function, followed by the state after the assignment of its
result to `l.state`.  It follows `runLoop` branch by branch. -/
def runStates : Nat → lexer → Option (List lexer)
  | 0, l =>
    match l.state with
    | none => some [l]
    | some _ => none
  | fuel + 1, l =>
    match l.state with
    | none => some [l]
    | some f =>
      match f.call fuel l, f.callStates fuel l with
      | some r, some sts =>
        (runStates fuel { r.1 with state := r.2 }).map (fun rest => sts ++ rest)
      | _, _ => none

/-! ## The asset server of `assets.go` -/

/-- The type `Mode` with its two constants. -/
inductive Mode where
  | ProductionMode
  | DevelopmentMode
deriving DecidableEq, Repr

/-- The constant `defaultAssetsURL`. -/
def defaultAssetsURL : GoString := ascii "/assets/"

/-- The constant `defaultAssetPath`. -/
def defaultAssetPath : GoString := ascii "./assets"

/-- A non-nil `*http.ServeMux`: `http.DefaultServeMux` or a mux of the caller. -/
inductive MuxRef where
  | DefaultServeMux
  | mux (id : Nat)
deriving DecidableEq, Repr

/-- The struct `Config`; a nil `ServeMux` is `none`. -/
structure Config where
  RunMode : Mode
  AssetURL : GoString
  AssetPath : GoString
  ServeMux : Option MuxRef
deriving DecidableEq, Repr

/-- The `http.Handler` values of this program: `http.FileServer(http.Dir(root))`,
`http.HandlerFunc(serveAssets)`, and handlers registered by other code. -/
inductive Handler where
  | FileServer (root : GoString)
  | serveAssets
  | other (id : Nat)
deriving DecidableEq, Repr

/-- The state that `Init` works on: the package variable `fileServer` (nil before
`Init`) and the patterns registered on each mux, oldest first. -/
structure Server where
  fileServer : Option Handler
  routes : List (MuxRef × GoString × Handler)
deriving DecidableEq, Repr

/-- The test by which `(*http.ServeMux).Handle` registers a pattern or panics,
given the patterns already registered on the mux and the new pattern.  It belongs
to `net/http` and depends on the Go release: every release refuses an empty
pattern and a pattern that is already registered; from Go 1.22 on a malformed
pattern (one without `/`, a bad wildcard) and a pattern in conflict with a
registered one are refused too.  The model takes the test as a parameter. -/
abbrev MuxTest := List GoString → GoString → Bool

/-- The test of the releases before Go 1.22: the pattern is not empty and not yet
registered on the mux. -/
def classicMuxTest : MuxTest :=
  fun registered pattern => pattern != [] && !registered.contains pattern

/-- Go's `(*http.ServeMux).Handle(pattern, handler)` on the mux `m`: it registers
the handler under the pattern when the mux accepts the pattern, and panics (`none`)
otherwise. -/
def Handle (accepts : MuxTest) (s : Server) (m : MuxRef) (pattern : GoString)
    (h : Handler) : Option Server :=
  if accepts ((s.routes.filter (fun r => r.1 == m)).map (fun r => r.2.1)) pattern then
    some { s with routes := s.routes ++ [(m, pattern, h)] }
  else none

/-- The function `Init`: the configuration it leaves in `*config`, and the state
after it returns (`none` when `Handle` panics). -/
def Init (accepts : MuxTest) (config : Config) (s : Server) : Config × Option Server :=
  let c1 := if config.ServeMux = none then
      { config with ServeMux := some MuxRef.DefaultServeMux } else config
  let c2 := if c1.AssetURL.length = 0 then { c1 with AssetURL := defaultAssetsURL } else c1
  let c3 := if c2.AssetPath.length = 0 then { c2 with AssetPath := defaultAssetPath } else c2
  let s1 := { s with fileServer := some (Handler.FileServer (c3.AssetPath ++ ascii "/..")) }
  match c3.ServeMux with
  | some m => (c3, Handle accepts s1 m c3.AssetURL Handler.serveAssets)
  | none => (c3, none)

/-- The elements of a path between its `/` separators. -/
def splitSlash : GoString → List GoString
  | [] => [[]]
  | b :: t =>
    if b = 47 then [] :: splitSlash t
    else
      match splitSlash t with
      | c :: cs => (b :: c) :: cs
      | [] => [[b]]

/-- Go's `strings.Join(elems, "/")`. -/
def joinSlash : List GoString → GoString
  | [] => []
  | [c] => c
  | c :: d :: cs => c ++ 47 :: joinSlash (d :: cs)

/-- One element processed by `path.Clean`: empty elements and `.` are dropped, `..`
removes the element before it (at the top of a rooted path it is dropped, at the
top of a relative path or behind another `..` it is kept), others are kept. -/
def cleanStep (rooted : Bool) (stack : List GoString) (c : GoString) : List GoString :=
  if c = [] ∨ c = ascii "." then stack
  else if c = ascii ".." then
    match stack.getLast? with
    | some top => if top = ascii ".." then stack ++ [c] else stack.dropLast
    | none => if rooted then stack else stack ++ [c]
  else stack ++ [c]

/-- Go's `path.Clean` (and `filepath.Clean` where the separator is `/`), after its
documented rules: the shortest path equivalent to `p` by purely lexical
processing; `.` for the empty result. -/
def Clean (p : GoString) : GoString :=
  let rooted := p.head? == some 47
  let out := (if rooted then [47] else []) ++
    joinSlash ((splitSlash p).foldl (cleanStep rooted) [])
  if out = [] then ascii "." else out

/-- Go's `filepath.Join(a, b)` where the separator is `/`: empty elements are
ignored and the result is cleaned. -/
def Join (a b : GoString) : GoString :=
  if a = [] then (if b = [] then [] else Clean b)
  else if b = [] then Clean a
  else Clean (a ++ 47 :: b)

/-- Go's `strings.HasSuffix(s, suffix)`. -/
def hasSuffix (s suffix : GoString) : Bool :=
  decide (suffix.length ≤ s.length) && (s.drop (s.length - suffix.length) == suffix)

/-- The name that `http.Dir(d).Open(name)` passes to `os.Open`:
`filepath.Join(dir, filepath.FromSlash(path.Clean("/"+name)))`, with `.` for an empty
`d`. -/
def dirOpen (d name : GoString) : GoString :=
  Join (if d = [] then ascii "." else d) (Clean (47 :: name))

/-- The file that the handler `http.FileServer(http.Dir(root))` opens for a request
with URL path `upath`: a path ending in `/index.html` is redirected and no file is
opened (`none`); otherwise the file is `Dir(root).Open(path.Clean(upath))`, with a
`/` put before a `upath` that lacks it. -/
def openedFile (root upath : GoString) : Option GoString :=
  let u := if hasPrefix upath (ascii "/") then upath else 47 :: upath
  if hasSuffix u (ascii "/index.html") then none
  else some (dirOpen root (Clean u))

/-- The file opened when the handler `h` serves a request with URL path `upath`.
The function `serveAssets` hands the request to the package variable `fileServer`
(a nil handler panics: `none`); handlers of other code open no file of this
program. -/
def serve (s : Server) (h : Handler) (upath : GoString) : Option GoString :=
  match h with
  | Handler.FileServer root => openedFile root upath
  | Handler.serveAssets =>
    match s.fileServer with
    | some (Handler.FileServer root) => openedFile root upath
    | _ => none
  | Handler.other _ => none

/-- An ordinary path element: not empty, not `.`, not `..`, and without `/`. -/
def ordinary (c : GoString) : Prop :=
  c ≠ [] ∧ c ≠ ascii "." ∧ c ≠ ascii ".." ∧ (47 : Byte) ∉ c

instance (c : GoString) : Decidable (ordinary c) := by
  unfold ordinary; infer_instance

/-! # Properties -/

/-! ## The decoder -/

theorem first_cases (b : Nat) :
    (first b = 0xF0 ∧ b < 0x80) ∨ (first b = 0xF1 ∧ 0x80 ≤ b) ∨
    (first b = 0x02 ∧ 0xC2 ≤ b ∧ b < 0xE0) ∨ (first b = 0x13 ∧ b = 0xE0) ∨
    (first b = 0x03 ∧ 0xE1 ≤ b ∧ b < 0xF0) ∨ (first b = 0x23 ∧ b = 0xED) ∨
    (first b = 0x34 ∧ b = 0xF0) ∨ (first b = 0x04 ∧ 0xF1 ≤ b ∧ b < 0xF4) ∨
    (first b = 0x44 ∧ b = 0xF4) := by
  unfold first
  split_ifs <;> simp <;> omega

theorem byteAt_lt (s : GoString) (i : Nat) : byteAt s i < 256 := (s.getD i 0).isLt

/-- The possible outcomes of decoding a non-empty string: an ASCII byte, an invalid
first byte, or a sequence of two to four bytes that are all at least `0x80`. -/
theorem decode_cases (s : GoString) (hs : s ≠ []) (r w : Int)
    (h : DecodeRuneInString s = (r, w)) :
    (r = ((byteAt s 0 : Nat) : Int) ∧ w = 1 ∧ byteAt s 0 < 128) ∨
    (r = 65533 ∧ w = 1 ∧ 128 ≤ byteAt s 0) ∨
    (r ≠ 47 ∧ 0 ≤ r ∧ 2 ≤ w ∧ w ≤ 4 ∧ w ≤ (s.length : Int) ∧ 128 ≤ byteAt s 0 ∧
      128 ≤ byteAt s 1 ∧ (3 ≤ w → 128 ≤ byteAt s 2) ∧ (4 ≤ w → 128 ≤ byteAt s 3)) := by
  have hlen : ¬ s.length < 1 := by
    cases s with
    | nil => exact absurd rfl hs
    | cons b t => simp
  unfold DecodeRuneInString RuneError at h
  rw [if_neg hlen] at h
  rcases first_cases (byteAt s 0) with h1 | h1 | h1 | h1 | h1 | h1 | h1 | h1 | h1
  · simp [h1.1] at h
    omega
  · simp [h1.1] at h
    omega
  all_goals
    simp only [h1.1, acceptRanges] at h
    norm_num at h
    split_ifs at h
    all_goals
      simp only [Prod.mk.injEq] at h
      obtain ⟨rfl, rfl⟩ := h
      omega

/-- What `lexText` needs of the decoder: the width is between 1 and 4 and stays
inside the string, the rune is never `eof`, it is `/` exactly when the first byte
is, and a rune other than `/` covers no `/` byte. -/
theorem decode_facts (s : GoString) (hs : s ≠ []) :
    ∃ wn : Nat, (DecodeRuneInString s).2 = (wn : Int) ∧ 1 ≤ wn ∧ wn ≤ 4 ∧ wn ≤ s.length ∧
      0 ≤ (DecodeRuneInString s).1 ∧
      ((DecodeRuneInString s).1 = 47 ↔ byteAt s 0 = 47) ∧
      ((DecodeRuneInString s).1 = 47 → wn = 1) ∧
      ((DecodeRuneInString s).1 ≠ 47 → ∀ i : Nat, i < wn → byteAt s i ≠ 47) := by
  have hlen : 1 ≤ s.length := by
    cases s with
    | nil => exact absurd rfl hs
    | cons b t => simp
  rcases hd : DecodeRuneInString s with ⟨r, w⟩
  have hc := decode_cases s hs r w hd
  simp only []
  refine ⟨w.toNat, ?_⟩
  have small : ∀ i : Nat, i < w.toNat → w ≤ 4 → i = 0 ∨ i = 1 ∨ i = 2 ∨ i = 3 := by
    intro i h h'; omega
  rcases hc with ⟨h1, h2, h3⟩ | ⟨h1, h2, h3⟩ | ⟨h1, h2, h3, h4, h5, h6, h7, h8, h9⟩
  · refine ⟨by omega, by omega, by omega, by omega, by omega, by omega, by omega, ?_⟩
    intro hne i hi
    have : i = 0 := by omega
    subst this; omega
  · refine ⟨by omega, by omega, by omega, by omega, by omega, by omega, by omega, ?_⟩
    intro hne i hi
    have : i = 0 := by omega
    subst this; omega
  · refine ⟨by omega, by omega, by omega, by omega, by omega, by omega, by omega, ?_⟩
    intro hne i hi
    rcases small i hi h4 with rfl | rfl | rfl | rfl
    · omega
    · omega
    · have := h8 (by omega); omega
    · have := h9 (by omega); omega

/-! ## Text runs -/

theorem byte_eq_iff (b : Byte) : b = 47 ↔ b.val = 47 := by
  constructor
  · intro h; subst h; rfl
  · intro h; exact Fin.ext h

theorem byteAt_cons_zero (b : Byte) (t : GoString) : byteAt (b :: t) 0 = b.val := rfl

theorem byteAt_cons_succ (b : Byte) (t : GoString) (i : Nat) :
    byteAt (b :: t) (i + 1) = byteAt t i := rfl

theorem textLen_le (s : GoString) : textLen s ≤ s.length := by
  induction s with
  | nil => simp [textLen]
  | cons b t ih =>
    unfold textLen
    split_ifs
    · omega
    · simp; omega

theorem textLen_take_ne (s : GoString) : ∀ b ∈ s.take (textLen s), b ≠ 47 := by
  induction s with
  | nil => simp [textLen]
  | cons b t ih =>
    unfold textLen
    split_ifs with h
    · simp
    · intro c hc
      simp only [List.take_succ_cons, List.mem_cons] at hc
      rcases hc with rfl | hc
      · exact h
      · exact ih c hc

theorem drop_textLen (s : GoString) :
    s.drop (textLen s) = [] ∨ ∃ r, s.drop (textLen s) = 47 :: r := by
  induction s with
  | nil => simp [textLen]
  | cons b t ih =>
    unfold textLen
    split_ifs with h
    · right; exact ⟨t, by simp [h]⟩
    · simpa using ih

theorem textLen_of_noSlash (s : GoString) (h : ∀ b ∈ s, b ≠ 47) : textLen s = s.length := by
  induction s with
  | nil => simp [textLen]
  | cons b t ih =>
    unfold textLen
    rw [if_neg (h b (by simp)), ih (fun c hc => h c (by simp [hc]))]
    simp

theorem textLen_append (t r : GoString) (h : ∀ b ∈ t, b ≠ 47) :
    textLen (t ++ 47 :: r) = t.length := by
  induction t with
  | nil => simp [textLen]
  | cons b t ih =>
    have e : textLen (b :: t ++ 47 :: r) = textLen (t ++ 47 :: r) + 1 := by
      show (if b = 47 then 0 else textLen (t ++ 47 :: r) + 1) = _
      rw [if_neg (h b (by simp))]
    rw [e, ih (fun c hc => h c (by simp [hc]))]
    simp

/-- A run of `n` bytes without `/` at the head of `s` is part of the text run. -/
theorem textLen_skip (n : Nat) : ∀ s : GoString, n ≤ s.length →
    (∀ i : Nat, i < n → byteAt s i ≠ 47) → textLen s = n + textLen (s.drop n) := by
  induction n with
  | zero => intro s _ _; simp
  | succ n ih =>
    intro s hlen h
    cases s with
    | nil => simp at hlen
    | cons b t =>
      have hb : b ≠ 47 := by
        intro hb
        exact h 0 (by omega) (by rw [byteAt_cons_zero, hb]; rfl)
      have ht := ih t (by simpa using hlen) (fun i hi => by
        have := h (i + 1) (by omega)
        rwa [byteAt_cons_succ] at this)
      simp only [textLen, if_neg hb, List.drop_succ_cons]
      omega

theorem textLen_head (s : GoString) (hs : s ≠ []) (h : byteAt s 0 = 47) : textLen s = 0 := by
  cases s with
  | nil => exact absurd rfl hs
  | cons b t =>
    have hb : b = 47 := (byte_eq_iff b).mpr h
    simp [textLen, hb]

/-! ## The cursor -/

theorem next_eof (l : lexer) (h : l.pos ≥ (l.input.length : Int)) :
    next l = ({ l with width := 0 }, eof) := by
  simp [next, h]

theorem next_decode (l : lexer) (k : Nat) (hp : l.pos = (k : Int)) (hk : k < l.input.length) :
    next l = ({ l with width := (DecodeRuneInString (l.input.drop k)).2,
                       pos := (k : Int) + (DecodeRuneInString (l.input.drop k)).2 },
              (DecodeRuneInString (l.input.drop k)).1) := by
  have h : ¬ l.pos ≥ (l.input.length : Int) := by omega
  unfold next
  rw [if_neg h]
  simp [hp, sliceFrom]

theorem slice_nat (s : GoString) (a b : Nat) :
    slice s (a : Int) (b : Int) = (s.drop a).take (b - a) := by
  have h : ((b : Int) - (a : Int)).toNat = b - a := by omega
  simp [slice, h]

/-- The state and the next state function that `lexText` leaves when its loop
stops with the cursor at offset `e` (at the end of the input, or just before
the `/` it has read). -/
theorem lexText_loop (fuel : Nat) : ∀ (l : lexer) (k : Nat), l.pos = (k : Int) →
    k ≤ l.input.length → l.input.length - k < fuel →
    lexText fuel l =
      if k + textLen (l.input.drop k) = l.input.length then
        some (emit (if (l.input.length : Int) > l.start
                    then emit { l with pos := (l.input.length : Int), width := 0 } itemText
                    else { l with pos := (l.input.length : Int), width := 0 }) itemEOF, none)
      else
        some (emitPrev { l with pos := ((k + textLen (l.input.drop k) : Nat) : Int) + 1, width := 1 }
                itemText, some stateFn.lexComment) := by
  induction fuel with
  | zero => intro l k _ _ h; omega
  | succ fuel ih =>
    intro l k hp hk hf
    unfold lexText
    by_cases hlen : k = l.input.length
    · have hd : l.input.drop k = [] := by simp [hlen]
      rw [next_eof l (by omega)]
      have hp2 : l.pos = (l.input.length : Int) := by omega
      have e : ({ l with width := 0 } : lexer) = { l with pos := (l.input.length : Int), width := 0 } := by
        cases l; simp_all
      rw [e]
      simp [hd, textLen, hlen, hp2, eof]
    · have hk2 : k < l.input.length := by omega
      have hs : l.input.drop k ≠ [] := by
        intro h
        have := congrArg List.length h
        simp at this; omega
      rw [next_decode l k hp hk2]
      obtain ⟨wn, hw, h1, h4, hle, hr0, hiff, hone, hskip⟩ := decode_facts (l.input.drop k) hs
      simp only [hw]
      have hne : ¬ (DecodeRuneInString (l.input.drop k)).1 = eof := by
        unfold eof; omega
      rw [if_neg hne]
      by_cases h47 : (DecodeRuneInString (l.input.drop k)).1 = 47
      · rw [if_pos h47]
        have ht : textLen (l.input.drop k) = 0 := textLen_head _ hs (hiff.mp h47)
        have hwn := hone h47
        subst hwn
        rw [ht, if_neg (by omega)]
        simp
      · rw [if_neg h47]
        have hlen2 : (l.input.drop k).length = l.input.length - k := by simp
        have ht := textLen_skip wn (l.input.drop k) hle (hskip h47)
        rw [List.drop_drop] at ht
        have := ih { l with width := (wn : Int), pos := (k : Int) + (wn : Int) } (k + wn)
          (by simp) (by simp; omega) (by simp; omega)
        rw [this]
        simp only []
        have e1 : k + wn + textLen (List.drop (k + wn) l.input) = k + textLen (List.drop k l.input) := by
          rw [ht]; omega
        rw [e1]

theorem hasPrefix_length (s p : GoString) (h : hasPrefix s p = true) : p.length ≤ s.length := by
  simp [hasPrefix] at h
  exact h.1

theorem indexOf_bound (sep : GoString) : ∀ (s : GoString) (i : Nat),
    indexOf s sep = some i → i + sep.length ≤ s.length := by
  intro s
  induction s with
  | nil =>
    intro i h
    unfold indexOf at h
    split_ifs at h with hp
    have := hasPrefix_length _ _ hp
    cases h
    simpa using this
  | cons b t ih =>
    intro i h
    unfold indexOf at h
    split_ifs at h with hp
    · have := hasPrefix_length _ _ hp
      cases h
      omega
    · cases hj : indexOf t sep with
      | none => simp [hj] at h
      | some j =>
        simp [hj] at h
        have := ih j hj
        simp
        omega

theorem Index_neg_iff (s sep : GoString) : Index s sep < 0 ↔ indexOf s sep = none := by
  unfold Index
  cases indexOf s sep with
  | none => simp
  | some i => simp

theorem Index_of_some (s sep : GoString) (i : Nat) (h : indexOf s sep = some i) :
    Index s sep = (i : Int) := by
  simp [Index, h]

theorem take_textLen_eq_nil (s : GoString) : s.take (textLen s) = [] ↔ textLen s = 0 := by
  have := textLen_le s
  constructor
  · intro h
    have h2 : (s.take (textLen s)).length = 0 := by rw [h]; rfl
    rw [List.length_take] at h2
    omega
  · intro h; simp [h]

/-- The outcome of `lexText` entered at offset `k` with nothing pending. -/
theorem lexText_at (fuel : Nat) (l : lexer) (k : Nat) (hp : l.pos = (k : Int))
    (hs : l.start = (k : Int)) (hk : k ≤ l.input.length) (hf : l.input.length - k < fuel) :
    lexText fuel l =
      if k + textLen (l.input.drop k) = l.input.length then
        some ({ l with pos := (l.input.length : Int), width := 0, start := (l.input.length : Int),
                       items := l.items ++ (textItem k ((l.input.drop k).take (textLen (l.input.drop k))) ++
                         [⟨itemEOF, ((k + textLen (l.input.drop k) : Nat) : Int), []⟩]) }, none)
      else
        some ({ l with pos := ((k + textLen (l.input.drop k) : Nat) : Int), width := 1,
                       start := ((k + textLen (l.input.drop k) : Nat) : Int),
                       items := l.items ++ textItem k ((l.input.drop k).take (textLen (l.input.drop k))) },
              some stateFn.lexComment) := by
  rw [lexText_loop fuel l k hp hk hf]
  have hn := textLen_le (l.input.drop k)
  have hlen2 : (l.input.drop k).length = l.input.length - k := by simp
  by_cases he : k + textLen (l.input.drop k) = l.input.length
  · rw [if_pos he, if_pos he]
    have hn' : l.input.length - k = textLen (l.input.drop k) := by omega
    by_cases h0 : textLen (l.input.drop k) = 0
    · have hkl : ¬ ((l.input.length : Int) > l.start) := by omega
      rw [if_neg hkl]
      have ht : textItem k ((l.input.drop k).take (textLen (l.input.drop k))) = [] := by
        simp [textItem, h0]
      rw [ht]
      have hkk : k = l.input.length := by omega
      simp [emit, send, slice, hs, h0, ← hkk]
    · have hkl : ((l.input.length : Int) > l.start) := by omega
      rw [if_pos hkl]
      have ht : textItem k ((l.input.drop k).take (textLen (l.input.drop k))) =
          [⟨itemText, (k : Int), (l.input.drop k).take (textLen (l.input.drop k))⟩] := by
        have := (take_textLen_eq_nil (l.input.drop k)).not.mpr h0
        simp [textItem, this]
      rw [ht]
      have hsl := slice_nat l.input k l.input.length
      rw [hn'] at hsl
      simp [emit, send, hs, hsl, slice, he]
      omega
  · rw [if_neg he, if_neg he]
    by_cases h0 : textLen (l.input.drop k) = 0
    · have ht : textItem k ((l.input.drop k).take (textLen (l.input.drop k))) = [] := by
        simp [textItem, h0]
      rw [ht]
      simp [emitPrev, backup, hs, h0]
    · have ht : textItem k ((l.input.drop k).take (textLen (l.input.drop k))) =
          [⟨itemText, (k : Int), (l.input.drop k).take (textLen (l.input.drop k))⟩] := by
        have := (take_textLen_eq_nil (l.input.drop k)).not.mpr h0
        simp [textItem, this]
      rw [ht]
      have hsl := slice_nat l.input k (k + textLen (l.input.drop k))
      have hgt : (k : Int) < ((k + textLen (l.input.drop k) : Nat) : Int) := by omega
      simp only [Nat.add_sub_cancel_left] at hsl
      simp only [emitPrev, backup, send, hs, add_sub_cancel_right, gt_iff_lt, hgt, if_true, hsl]

/-! ## Unfolding `tokensFrom` -/

theorem tokensFrom_eof (off : Nat) (s : GoString) (h : s.drop (textLen s) = []) :
    tokensFrom off s =
      textItem off (s.take (textLen s)) ++ [⟨itemEOF, ((off + textLen s : Nat) : Int), []⟩] := by
  rw [tokensFrom]
  simp only [h, dite_true]

theorem tokensFrom_invalid (off : Nat) (s : GoString) (h : s.drop (textLen s) ≠ [])
    (hp : hasPrefix (s.drop (textLen s)) startComment = false) :
    tokensFrom off s =
      textItem off (s.take (textLen s)) ++
        [⟨itemError, ((off + textLen s : Nat) : Int), ascii "invalid comment"⟩] := by
  rw [tokensFrom]
  simp only [h, dite_false, hp]
  simp

theorem tokensFrom_unclosed (off : Nat) (s : GoString) (h : s.drop (textLen s) ≠ [])
    (hp : hasPrefix (s.drop (textLen s)) startComment = true)
    (hi : indexOf (s.drop (textLen s)) endComment = none) :
    tokensFrom off s =
      textItem off (s.take (textLen s)) ++
        [⟨itemError, ((off + textLen s : Nat) : Int), ascii "unclosed comment"⟩] := by
  rw [tokensFrom]
  simp only [h, dite_false, hp, hi]
  simp

theorem tokensFrom_comment (off : Nat) (s : GoString) (i : Nat) (h : s.drop (textLen s) ≠ [])
    (hp : hasPrefix (s.drop (textLen s)) startComment = true)
    (hi : indexOf (s.drop (textLen s)) endComment = some i) :
    tokensFrom off s =
      textItem off (s.take (textLen s)) ++
        ⟨itemComment, ((off + textLen s : Nat) : Int), (s.drop (textLen s)).take (i + 2)⟩ ::
          tokensFrom (off + textLen s + (i + 2)) ((s.drop (textLen s)).drop (i + 2)) := by
  rw [tokensFrom]
  simp only [h, dite_false, hp, hi]
  simp

/-! ## The state functions and `run` -/

theorem endComment_length : endComment.length = 2 := rfl

/-- The outcome of `lexComment` entered at offset `e` with nothing pending. -/
theorem lexComment_at (l : lexer) (e : Nat) (hp : l.pos = (e : Int)) (hs : l.start = (e : Int)) :
    lexComment l =
      if hasPrefix (l.input.drop e) startComment = false then
        ({ l with items := l.items ++ [⟨itemError, (e : Int), ascii "invalid comment"⟩] }, none)
      else
        match indexOf (l.input.drop e) endComment with
        | none =>
          ({ l with items := l.items ++ [⟨itemError, (e : Int), ascii "unclosed comment"⟩] }, none)
        | some i =>
          ({ l with pos := ((e + (i + 2) : Nat) : Int), start := ((e + (i + 2) : Nat) : Int),
                    items := l.items ++ [⟨itemComment, (e : Int), (l.input.drop e).take (i + 2)⟩] },
            some stateFn.lexText) := by
  unfold lexComment
  have hd : sliceFrom l.input l.pos = l.input.drop e := by simp [sliceFrom, hp]
  rw [hd]
  by_cases hpre : hasPrefix (l.input.drop e) startComment = false
  · simp [hpre, errorf, send, hs]
  · rw [if_neg hpre]
    have hpre2 : hasPrefix (l.input.drop e) startComment = true := by simpa using hpre
    simp only [hpre2, Bool.not_true, Bool.false_eq_true, if_false]
    cases hi : indexOf (l.input.drop e) endComment with
    | none =>
      have := (Index_neg_iff (l.input.drop e) endComment).mpr hi
      simp [this, errorf, send, hs]
    | some i =>
      have hI := Index_of_some _ _ i hi
      have hneg : ¬ ((i : Int) < 0) := by omega
      have hsl := slice_nat l.input e (e + (i + 2))
      simp only [Nat.add_sub_cancel_left] at hsl
      have hc : (e : Int) + ((i : Int) + ((2 : Nat) : Int)) = ((e + (i + 2) : Nat) : Int) := by
        push_cast; ring
      simp only [hI, hneg, if_false, endComment_length, emit, send, hs, hp, hc, hsl]

theorem runLoop_nil (fuel : Nat) (l : lexer) (h : l.state = none) : runLoop fuel l = some l := by
  cases fuel <;> simp [runLoop, h]

/-- The state loop of `run`, entered at `lexText` with the cursor at offset `k` and
nothing pending, stops when given `2 * (len - k) + 2` units of fuel or more, and has
then sent the items `tokensFrom k input[k:]`, leaving the rest of the lexer as it
was. -/
theorem runLoop_lexText : ∀ (m : Nat) (l : lexer) (k fuel : Nat), l.input.length - k ≤ m →
    l.state = some stateFn.lexText → l.pos = (k : Int) → l.start = (k : Int) →
    k ≤ l.input.length → 2 * (l.input.length - k) + 2 ≤ fuel →
    ∃ l1, runLoop fuel l = some l1 ∧ l1.items = l.items ++ tokensFrom k (l.input.drop k) ∧
      l1.state = none ∧ l1.input = l.input ∧ l1.name = l.name ∧ l1.lastPos = l.lastPos ∧
      l1.closed = l.closed ∧ l1.start = l1.pos ∧ l1.pos ≤ (l.input.length : Int) := by
  intro m
  induction m using Nat.strong_induction_on with
  | _ m ih =>
    intro l k fuel hm hst hp hs hk hfuel
    obtain ⟨f, rfl⟩ : ∃ f, fuel = f + 1 := ⟨fuel - 1, by omega⟩
    have hn := textLen_le (l.input.drop k)
    have hlen2 : (l.input.drop k).length = l.input.length - k := by simp
    rw [runLoop]
    simp only [hst, stateFn.call]
    rw [lexText_at f l k hp hs hk (by omega)]
    by_cases he : k + textLen (l.input.drop k) = l.input.length
    · -- the text run reaches the end of the input
      rw [if_pos he]
      simp only []
      rw [runLoop_nil _ _ rfl]
      have hd : (l.input.drop k).drop (textLen (l.input.drop k)) = [] := by
        rw [List.drop_drop, he]; simp
      refine ⟨_, rfl, ?_, rfl, rfl, rfl, rfl, rfl, rfl, le_refl _⟩
      rw [tokensFrom_eof k _ hd]
    · -- the text run stops at a `/`
      rw [if_neg he]
      simp only []
      obtain ⟨f2, rfl⟩ : ∃ f2, f = f2 + 1 := ⟨f - 1, by omega⟩
      have hd : (l.input.drop k).drop (textLen (l.input.drop k)) ≠ [] := by
        intro h
        have := congrArg List.length h
        simp at this; omega
      have hdd : (l.input.drop k).drop (textLen (l.input.drop k)) =
          l.input.drop (k + textLen (l.input.drop k)) := by
        rw [List.drop_drop]
      rw [runLoop]
      simp only [stateFn.call]
      rw [lexComment_at _ (k + textLen (l.input.drop k)) rfl rfl]
      simp only []
      by_cases hpre : hasPrefix (l.input.drop (k + textLen (l.input.drop k))) startComment = false
      · rw [if_pos hpre]
        rw [runLoop_nil _ _ rfl]
        refine ⟨_, rfl, ?_, rfl, rfl, rfl, rfl, rfl, rfl, by simp; omega⟩
        rw [tokensFrom_invalid k _ hd (by rw [hdd]; exact hpre)]
        simp
      · rw [if_neg hpre]
        have hpre2 : hasPrefix (l.input.drop (k + textLen (l.input.drop k))) startComment = true := by
          simpa using hpre
        cases hi : indexOf (l.input.drop (k + textLen (l.input.drop k))) endComment with
        | none =>
          simp only []
          rw [runLoop_nil _ _ rfl]
          refine ⟨_, rfl, ?_, rfl, rfl, rfl, rfl, rfl, rfl, by simp; omega⟩
          rw [tokensFrom_unclosed k _ hd (by rw [hdd]; exact hpre2) (by rw [hdd]; exact hi)]
          simp
        | some i =>
          simp only []
          have hb := indexOf_bound _ _ _ hi
          rw [endComment_length] at hb
          simp only [List.length_drop] at hb
          obtain ⟨l1, hrun, hitems, h1, h2, h3, h4, h5, h6, h7⟩ :=
            ih (l.input.length - (k + textLen (l.input.drop k) + (i + 2))) (by omega)
              { l with pos := ((k + textLen (l.input.drop k) + (i + 2) : Nat) : Int),
                       width := 1,
                       start := ((k + textLen (l.input.drop k) + (i + 2) : Nat) : Int),
                       items := l.items ++ textItem k ((l.input.drop k).take (textLen (l.input.drop k))) ++
                         [⟨itemComment, ((k + textLen (l.input.drop k) : Nat) : Int),
                           (l.input.drop (k + textLen (l.input.drop k))).take (i + 2)⟩],
                       state := some stateFn.lexText }
              (k + textLen (l.input.drop k) + (i + 2)) f2 (le_refl _) rfl rfl rfl
              (by simp only []; omega) (by simp only []; omega)
          refine ⟨l1, hrun, ?_, h1, h2, h3, h4, h5, h6, h7⟩
          rw [hitems]
          rw [tokensFrom_comment k _ i hd (by rw [hdd]; exact hpre2) (by rw [hdd]; exact hi)]
          simp only [hdd, List.drop_drop, List.append_assoc, List.singleton_append]

/-! ## `run` and `scan` -/

/-- With `scanFuel input` units of fuel or more, `run` stops: it returns the lexer
with the channel closed, the state nil, and the items `tokensFrom 0 input` sent. -/
theorem run_spec (name input : GoString) (fuel : Nat) (h : scanFuel input ≤ fuel) :
    ∃ l, run fuel (newLexer name input) = some l ∧ l.items = tokensFrom 0 input ∧
      l.closed = true ∧ l.state = none ∧ l.input = input ∧ l.name = name ∧ l.lastPos = 0 ∧
      l.start = l.pos ∧ l.pos ≤ (input.length : Int) := by
  obtain ⟨l1, hrun, hitems, h1, h2, h3, h4, h5, h6, h7⟩ :=
    runLoop_lexText input.length { newLexer name input with state := some stateFn.lexText } 0 fuel
      (by simp [newLexer]) rfl rfl rfl (by simp) (by simpa [scanFuel, newLexer] using h)
  refine ⟨{ l1 with closed := true }, ?_, ?_, rfl, h1, h2, h3, h4, h6, h7⟩
  · simp [run, hrun]
  · simpa [newLexer] using hitems

theorem scan_eq (name input : GoString) : scan name input = tokensFrom 0 input := by
  obtain ⟨l, hrun, hitems, _⟩ := run_spec name input (scanFuel input) (le_refl _)
  simp [scan, hrun, hitems]

/-- The fuel of `scan` is enough: with that much fuel or more, `run` stops and the
items it has sent are `scan name input`. -/
theorem fuel_suffices (name input : GoString) (fuel : Nat) (h : scanFuel input ≤ fuel) :
    ∃ l, run fuel (newLexer name input) = some l ∧ l.items = scan name input := by
  obtain ⟨l, hrun, hitems, _⟩ := run_spec name input fuel h
  exact ⟨l, hrun, by rw [hitems, scan_eq]⟩

/-- Induction along the scan: a property of `tokensFrom off s` follows from the
four ways a round of `lexText` and `lexComment` can go. -/
theorem tokensFrom_induct (P : Nat → GoString → List item → Prop)
    (hEOF : ∀ off s, s.drop (textLen s) = [] →
      P off s (textItem off (s.take (textLen s)) ++
        [⟨itemEOF, ((off + textLen s : Nat) : Int), []⟩]))
    (hInvalid : ∀ off s, s.drop (textLen s) ≠ [] →
      hasPrefix (s.drop (textLen s)) startComment = false →
      P off s (textItem off (s.take (textLen s)) ++
        [⟨itemError, ((off + textLen s : Nat) : Int), ascii "invalid comment"⟩]))
    (hUnclosed : ∀ off s, s.drop (textLen s) ≠ [] →
      hasPrefix (s.drop (textLen s)) startComment = true →
      indexOf (s.drop (textLen s)) endComment = none →
      P off s (textItem off (s.take (textLen s)) ++
        [⟨itemError, ((off + textLen s : Nat) : Int), ascii "unclosed comment"⟩]))
    (hComment : ∀ off s i, s.drop (textLen s) ≠ [] →
      hasPrefix (s.drop (textLen s)) startComment = true →
      indexOf (s.drop (textLen s)) endComment = some i →
      P (off + textLen s + (i + 2)) ((s.drop (textLen s)).drop (i + 2))
        (tokensFrom (off + textLen s + (i + 2)) ((s.drop (textLen s)).drop (i + 2))) →
      P off s (textItem off (s.take (textLen s)) ++
        ⟨itemComment, ((off + textLen s : Nat) : Int), (s.drop (textLen s)).take (i + 2)⟩ ::
          tokensFrom (off + textLen s + (i + 2)) ((s.drop (textLen s)).drop (i + 2)))) :
    ∀ off s, P off s (tokensFrom off s) := by
  have main : ∀ (n : Nat) (off : Nat) (s : GoString), s.length = n → P off s (tokensFrom off s) := by
    intro n
    induction n using Nat.strong_induction_on with
    | _ n ih =>
      intro off s hn
      by_cases hd : s.drop (textLen s) = []
      · rw [tokensFrom_eof off s hd]; exact hEOF off s hd
      · by_cases hp : hasPrefix (s.drop (textLen s)) startComment = false
        · rw [tokensFrom_invalid off s hd hp]; exact hInvalid off s hd hp
        · have hp2 : hasPrefix (s.drop (textLen s)) startComment = true := by simpa using hp
          cases hi : indexOf (s.drop (textLen s)) endComment with
          | none => rw [tokensFrom_unclosed off s hd hp2 hi]; exact hUnclosed off s hd hp2 hi
          | some i =>
            rw [tokensFrom_comment off s i hd hp2 hi]
            refine hComment off s i hd hp2 hi (ih _ ?_ _ _ rfl)
            have h1 : 0 < (s.drop (textLen s)).length := List.length_pos.mpr hd
            simp only [List.length_drop] at h1 ⊢
            omega
  intro off s
  exact main s.length off s rfl

/-! ## Lemmas on token sequences -/

theorem concatVals_append (a b : List item) :
    concatVals (a ++ b) = concatVals a ++ concatVals b := by
  induction a with
  | nil => rfl
  | cons t ts ih => simp [concatVals, ih]

theorem concatVals_textItem (off : Nat) (t : GoString) : concatVals (textItem off t) = t := by
  unfold textItem
  split_ifs with h
  · simp [concatVals, h]
  · simp [concatVals, isValue]

theorem mem_textItem (off : Nat) (v : GoString) (t : item) (h : t ∈ textItem off v) :
    t = ⟨itemText, (off : Int), v⟩ ∧ v ≠ [] := by
  unfold textItem at h
  split_ifs at h with hv
  · simp at h
  · simp at h
    exact ⟨h, hv⟩

theorem take_textLen_of_drop_nil (s : GoString) (h : s.drop (textLen s) = []) :
    s.take (textLen s) = s := by
  have := List.take_append_drop (textLen s) s
  rw [h, List.append_nil] at this
  exact this

theorem tokens_concat (off : Nat) (s : GoString) :
    (∀ t ∈ tokensFrom off s, t.typ ≠ itemError) → concatVals (tokensFrom off s) = s := by
  refine tokensFrom_induct (fun _ s toks => (∀ t ∈ toks, t.typ ≠ itemError) → concatVals toks = s)
    ?_ ?_ ?_ ?_ off s
  · intro off s hd _
    rw [concatVals_append, concatVals_textItem, take_textLen_of_drop_nil s hd]
    simp [concatVals, isValue]
  · intro off s _ _ h
    exact absurd rfl (h _ (List.mem_append_right _ (List.mem_singleton.mpr rfl)))
  · intro off s _ _ _ h
    exact absurd rfl (h _ (List.mem_append_right _ (List.mem_singleton.mpr rfl)))
  · intro off s i _ _ _ ih h
    have ih2 := ih (fun t ht => h t (List.mem_append_right _ (List.mem_cons_of_mem _ ht)))
    rw [concatVals_append, concatVals_textItem]
    simp only [concatVals, isValue, ih2]
    simp

theorem tokens_terminal (off : Nat) (s : GoString) :
    ∃ pre last, tokensFrom off s = pre ++ [last] ∧ isTerminal last = true ∧
      ∀ t ∈ pre, isTerminal t = false := by
  refine tokensFrom_induct (fun _ _ toks => ∃ pre last, toks = pre ++ [last] ∧
    isTerminal last = true ∧ ∀ t ∈ pre, isTerminal t = false) ?_ ?_ ?_ ?_ off s
  · intro off s _
    refine ⟨_, _, rfl, rfl, ?_⟩
    intro t ht
    rw [(mem_textItem _ _ _ ht).1]; rfl
  · intro off s _ _
    refine ⟨_, _, rfl, rfl, ?_⟩
    intro t ht
    rw [(mem_textItem _ _ _ ht).1]; rfl
  · intro off s _ _ _
    refine ⟨_, _, rfl, rfl, ?_⟩
    intro t ht
    rw [(mem_textItem _ _ _ ht).1]; rfl
  · intro off s i _ _ _ ih
    obtain ⟨pre, last, he, hl, hp⟩ := ih
    refine ⟨textItem off (s.take (textLen s)) ++
      ⟨itemComment, ((off + textLen s : Nat) : Int), (s.drop (textLen s)).take (i + 2)⟩ :: pre,
      last, ?_, hl, ?_⟩
    · rw [he]; simp
    · intro t ht
      simp only [List.mem_append, List.mem_cons] at ht
      rcases ht with ht | rfl | ht
      · rw [(mem_textItem _ _ _ ht).1]; rfl
      · rfl
      · exact hp t ht

theorem tokens_text_nonempty (off : Nat) (s : GoString) :
    ∀ t ∈ tokensFrom off s, t.typ = itemText → t.val ≠ [] := by
  refine tokensFrom_induct (fun _ _ toks => ∀ t ∈ toks, t.typ = itemText → t.val ≠ [])
    ?_ ?_ ?_ ?_ off s
  · intro off s _ t ht hty
    simp only [List.mem_append, List.mem_singleton] at ht
    rcases ht with ht | rfl
    · obtain ⟨rfl, hv⟩ := mem_textItem _ _ _ ht
      exact hv
    · cases hty
  · intro off s _ _ t ht hty
    simp only [List.mem_append, List.mem_singleton] at ht
    rcases ht with ht | rfl
    · obtain ⟨rfl, hv⟩ := mem_textItem _ _ _ ht
      exact hv
    · cases hty
  · intro off s _ _ _ t ht hty
    simp only [List.mem_append, List.mem_singleton] at ht
    rcases ht with ht | rfl
    · obtain ⟨rfl, hv⟩ := mem_textItem _ _ _ ht
      exact hv
    · cases hty
  · intro off s i _ _ _ ih t ht hty
    simp only [List.mem_append, List.mem_cons] at ht
    rcases ht with ht | rfl | ht
    · obtain ⟨rfl, hv⟩ := mem_textItem _ _ _ ht
      exact hv
    · cases hty
    · exact ih t ht hty

theorem tokens_noSlash (off : Nat) (s : GoString) (h : ∀ b ∈ s, b ≠ 47) :
    tokensFrom off s = textItem off s ++ [⟨itemEOF, ((off + s.length : Nat) : Int), []⟩] := by
  have hn := textLen_of_noSlash s h
  have hd : s.drop (textLen s) = [] := by rw [hn]; simp
  rw [tokensFrom_eof off s hd, hn]
  simp

/-! ## The claims -/

/-- C1 (round trip): when the scan of `input` emits no `itemError` token, the values
of the `itemText` and `itemComment` tokens it emits, concatenated in emission order,
are the input. -/
theorem round_trip (name input : GoString)
    (h : ∀ t ∈ scan name input, t.typ ≠ itemError) :
    concatVals (scan name input) = input := by
  rw [scan_eq] at h ⊢
  exact tokens_concat 0 input h

theorem round_trip_witness :
    (∀ t ∈ scan [] (ascii "a/*b*//*/c"), t.typ ≠ itemError) ∧
      concatVals (scan [] (ascii "a/*b*//*/c")) = ascii "a/*b*//*/c" :=
  ⟨by decide, round_trip [] (ascii "a/*b*//*/c") (by decide)⟩

/-- C2 (termination): for every input, `run` stops (with the fuel of `scan`, and
with any larger amount, it returns a lexer whose channel is closed and which has
sent the items `scan name input`), and the items sent are a sequence of
non-terminal tokens followed by exactly one terminal token (`itemEOF` or
`itemError`), which is the last one. -/
theorem scan_terminates (name input : GoString) :
    (∀ extra : Nat, ∃ l, run (scanFuel input + extra) (newLexer name input) = some l ∧
      l.items = scan name input ∧ l.closed = true ∧ l.state = none) ∧
    ∃ pre last, scan name input = pre ++ [last] ∧ isTerminal last = true ∧
      ∀ t ∈ pre, isTerminal t = false := by
  constructor
  · intro extra
    obtain ⟨l, hrun, hitems, hc, hs, _⟩ :=
      run_spec name input (scanFuel input + extra) (Nat.le_add_right _ _)
    exact ⟨l, hrun, by rw [hitems, scan_eq], hc, hs⟩
  · rw [scan_eq]
    exact tokens_terminal 0 input

/-- C6 (no spurious empty text): no `itemText` token emitted by a scan has an empty
value. -/
theorem text_nonempty (name input : GoString) :
    ∀ t ∈ scan name input, t.typ = itemText → t.val ≠ [] := by
  rw [scan_eq]
  exact tokens_text_nonempty 0 input

theorem text_nonempty_witness :
    (⟨itemText, 0, ascii "a"⟩ : item) ∈ scan [] (ascii "a/*b*/") ∧
      (⟨itemText, 0, ascii "a"⟩ : item).typ = itemText ∧
      (⟨itemText, 0, ascii "a"⟩ : item).val ≠ [] :=
  ⟨by decide, rfl, text_nonempty [] (ascii "a/*b*/") ⟨itemText, 0, ascii "a"⟩ (by decide) rfl⟩

/-- C9 (slash-free input): on an input without the byte `/`, the scan emits exactly
`itemEOF` at position 0 when the input is empty, and otherwise exactly an `itemText`
token at position 0 holding the whole input followed by `itemEOF` at position
`len(input)` with an empty value. -/
theorem slash_free (name input : GoString) (h : (47 : Byte) ∉ input) :
    scan name input =
      if input = [] then [⟨itemEOF, 0, []⟩]
      else [⟨itemText, 0, input⟩, ⟨itemEOF, (input.length : Int), []⟩] := by
  rw [scan_eq, tokens_noSlash 0 input (fun b hb hb47 => h (hb47 ▸ hb))]
  unfold textItem
  split_ifs with he
  · simp [he]
  · simp

theorem slash_free_witness :
    (47 : Byte) ∉ ascii "a b\n" ∧
      scan [] (ascii "a b\n") =
        if ascii "a b\n" = [] then [⟨itemEOF, 0, []⟩]
        else [⟨itemText, 0, ascii "a b\n"⟩, ⟨itemEOF, ((ascii "a b\n").length : Int), []⟩] :=
  ⟨by decide, slash_free [] (ascii "a b\n") (by decide)⟩

/-! ## Appending to the input -/

theorem hasPrefix_append_of_le (s q p : GoString) (h : p.length ≤ s.length) :
    hasPrefix (s ++ q) p = hasPrefix s p := by
  unfold hasPrefix
  rw [List.take_append_of_le_length h]
  have h2 : p.length ≤ (s ++ q).length := by simp; omega
  rw [decide_eq_true h, decide_eq_true h2]

theorem hasPrefix_append (s q p : GoString) (h : hasPrefix s p = true) :
    hasPrefix (s ++ q) p = true := by
  rw [hasPrefix_append_of_le s q p (hasPrefix_length s p h)]
  exact h

theorem hasPrefix_nil (s : GoString) : hasPrefix s [] = true := by
  simp [hasPrefix]

/-- The first occurrence of `sep` in `s` is still the first one in `s ++ q`. -/
theorem indexOf_append (sep q : GoString) : ∀ (s : GoString) (i : Nat),
    indexOf s sep = some i → indexOf (s ++ q) sep = some i := by
  intro s
  induction s with
  | nil =>
    intro i h
    unfold indexOf at h
    split_ifs at h with hp
    cases h
    have hl := hasPrefix_length _ _ hp
    have hsep : sep = [] := List.length_eq_zero.mp (by simpa using hl)
    subst hsep
    cases q with
    | nil => simp [indexOf, hasPrefix_nil]
    | cons b t => simp [indexOf, hasPrefix_nil]
  | cons b t ih =>
    intro i h
    have hb := indexOf_bound sep _ _ h
    unfold indexOf at h
    rw [List.cons_append]
    unfold indexOf
    split_ifs at h with hp
    · cases h
      have := hasPrefix_append (b :: t) q sep hp
      rw [List.cons_append] at this
      rw [if_pos this]
    · cases hj : indexOf t sep with
      | none => simp [hj] at h
      | some j =>
        simp [hj] at h
        have hbj := indexOf_bound sep _ _ hj
        have hle : sep.length ≤ (b :: t).length := by simp; omega
        have hpre := hasPrefix_append_of_le (b :: t) q sep hle
        rw [List.cons_append] at hpre
        have hp2 : hasPrefix (b :: t) sep = false := by simpa using hp
        rw [hpre, hp2]
        simp [ih j hj, h]

theorem textLen_append_left (q : GoString) : ∀ s : GoString, s.drop (textLen s) ≠ [] →
    textLen (s ++ q) = textLen s := by
  intro s
  induction s with
  | nil => intro h; simp [textLen] at h
  | cons b t ih =>
    intro h
    by_cases hb : b = 47
    · simp [textLen, hb]
    · have e1 : textLen (b :: t) = textLen t + 1 := by simp [textLen, hb]
      have e2 : textLen (b :: t ++ q) = textLen (t ++ q) + 1 := by
        show (if b = 47 then 0 else textLen (t ++ q) + 1) = _
        rw [if_neg hb]
      rw [e1] at h
      rw [e1, e2, ih (by simpa using h)]

theorem lastTyp_concat (a : List item) (x : item) : lastTyp (a ++ [x]) = some x.typ := by
  simp [lastTyp]

theorem startComment_eq : startComment = [47, 42] := by decide

theorem endComment_eq : endComment = [42, 47] := by decide

theorem hasPrefix_startComment (s : GoString) (h : hasPrefix s startComment = true) :
    ∃ r, s = 47 :: 42 :: r := by
  rw [startComment_eq] at h
  match s, h with
  | [], h => simp [hasPrefix] at h
  | [_], h => simp [hasPrefix] at h
  | a :: b :: r, h =>
    simp [hasPrefix] at h
    exact ⟨r, by rw [h.1, h.2]⟩

/-- A run of text followed by `/`: the text is flushed (when not empty) and the
scan goes on from the `/`. -/
theorem tokensFrom_text (off : Nat) (t r : GoString) (h : ∀ b ∈ t, b ≠ 47) :
    tokensFrom off (t ++ 47 :: r) = textItem off t ++ tokensFrom (off + t.length) (47 :: r) := by
  have hn : textLen (t ++ 47 :: r) = t.length := textLen_append t r h
  have hd : (t ++ 47 :: r).drop (textLen (t ++ 47 :: r)) = 47 :: r := by
    rw [hn]; simp
  have htk : (t ++ 47 :: r).take (textLen (t ++ 47 :: r)) = t := by
    rw [hn]; simp
  have hn0 : textLen (47 :: r) = 0 := by simp [textLen]
  have hd0 : (47 :: r).drop (textLen (47 :: r)) = 47 :: r := by rw [hn0]; rfl
  have ht0 : textItem (off + t.length) ((47 :: r).take (textLen (47 :: r))) = [] := by
    rw [hn0]; rfl
  have hne : (47 :: r : GoString) ≠ [] := by simp
  by_cases hp : hasPrefix (47 :: r) startComment = false
  · rw [tokensFrom_invalid off _ (by rw [hd]; exact hne) (by rw [hd]; exact hp),
      tokensFrom_invalid (off + t.length) _ (by rw [hd0]; exact hne) (by rw [hd0]; exact hp),
      ht0, htk, hn, hn0]
    simp
  · have hp2 : hasPrefix (47 :: r) startComment = true := by simpa using hp
    cases hi : indexOf (47 :: r) endComment with
    | none =>
      rw [tokensFrom_unclosed off _ (by rw [hd]; exact hne) (by rw [hd]; exact hp2)
          (by rw [hd]; exact hi),
        tokensFrom_unclosed (off + t.length) _ (by rw [hd0]; exact hne) (by rw [hd0]; exact hp2)
          (by rw [hd0]; exact hi),
        ht0, htk, hn, hn0]
      simp
    | some i =>
      rw [tokensFrom_comment off _ i (by rw [hd]; exact hne) (by rw [hd]; exact hp2)
          (by rw [hd]; exact hi),
        tokensFrom_comment (off + t.length) _ i (by rw [hd0]; exact hne) (by rw [hd0]; exact hp2)
          (by rw [hd0]; exact hi),
        ht0, htk, hn, hn0]
      simp

/-- A comment at the head of the input becomes one `itemComment` token, and the
scan goes on behind it. -/
theorem tokensFrom_comment_head (off : Nat) (c rest : GoString) (h : isComment c) :
    tokensFrom off (c ++ rest) =
      ⟨itemComment, (off : Int), c⟩ :: tokensFrom (off + c.length) rest := by
  obtain ⟨hp, hI⟩ := h
  obtain ⟨c1, hc⟩ := hasPrefix_startComment c hp
  have hlen : 2 ≤ c.length := by rw [hc]; simp
  obtain ⟨i, hi, hi2⟩ : ∃ i, indexOf c endComment = some i ∧ i + 2 = c.length := by
    unfold Index at hI
    cases hi : indexOf c endComment with
    | none => rw [hi] at hI; simp at hI; omega
    | some i => rw [hi] at hI; simp at hI; exact ⟨i, rfl, by omega⟩
  have hn0 : textLen (c ++ rest) = 0 := by rw [hc]; simp [textLen]
  have hne : c ++ rest ≠ [] := by rw [hc]; simp
  rw [tokensFrom_comment off (c ++ rest) i (by rw [hn0]; exact hne)
    (by rw [hn0]; exact hasPrefix_append c rest _ hp)
    (by rw [hn0]; exact indexOf_append _ rest c i hi)]
  rw [hn0, hi2]
  simp [textItem]

/-- When the scan of `p` ends in `itemEOF`, the scan of `p` followed by input that
begins with `/` emits the non-terminal tokens of `p` and goes on at that `/`. -/
theorem tokensFrom_append_slash (off : Nat) (p : GoString) :
    ∀ r : GoString, lastTyp (tokensFrom off p) = some itemEOF →
      tokensFrom off (p ++ 47 :: r) =
        (tokensFrom off p).dropLast ++ tokensFrom (off + p.length) (47 :: r) := by
  refine tokensFrom_induct (fun off p toks => ∀ r : GoString, lastTyp toks = some itemEOF →
      tokensFrom off (p ++ 47 :: r) = toks.dropLast ++ tokensFrom (off + p.length) (47 :: r))
    ?_ ?_ ?_ ?_ off p
  · intro off s hd r _
    have hs := take_textLen_of_drop_nil s hd
    have hall : ∀ b ∈ s, b ≠ 47 := by
      intro b hb
      rw [← hs] at hb
      exact textLen_take_ne s b hb
    rw [tokensFrom_text off s r hall, hs, List.dropLast_concat]
  · intro off s _ _ r h
    rw [lastTyp_concat] at h
    cases h
  · intro off s _ _ _ r h
    rw [lastTyp_concat] at h
    cases h
  · intro off s i hd hp hi ih r h
    obtain ⟨pre, last, he, _, _⟩ := tokens_terminal (off + textLen s + (i + 2))
      ((s.drop (textLen s)).drop (i + 2))
    have hb := indexOf_bound _ _ _ hi
    rw [endComment_length] at hb
    have hn := textLen_le s
    have hlast : lastTyp (tokensFrom (off + textLen s + (i + 2))
        ((s.drop (textLen s)).drop (i + 2))) = some itemEOF := by
      rw [he, lastTyp_concat]
      rw [he] at h
      have e : textItem off (s.take (textLen s)) ++
          ⟨itemComment, ((off + textLen s : Nat) : Int), (s.drop (textLen s)).take (i + 2)⟩ ::
            (pre ++ [last]) =
          (textItem off (s.take (textLen s)) ++
            ⟨itemComment, ((off + textLen s : Nat) : Int), (s.drop (textLen s)).take (i + 2)⟩ ::
              pre) ++ [last] := by simp
      rw [e, lastTyp_concat] at h
      exact h
    have ih2 := ih r hlast
    have hn2 : textLen (s ++ 47 :: r) = textLen s := textLen_append_left _ s hd
    have hdrop : (s ++ 47 :: r).drop (textLen s) = s.drop (textLen s) ++ 47 :: r :=
      List.drop_append_of_le_length hn
    have hne : (s ++ 47 :: r).drop (textLen (s ++ 47 :: r)) ≠ [] := by
      rw [hn2, hdrop]; simp
    rw [tokensFrom_comment off (s ++ 47 :: r) i hne
      (by rw [hn2, hdrop]; exact hasPrefix_append _ _ _ hp)
      (by rw [hn2, hdrop]; exact indexOf_append _ _ _ _ hi)]
    rw [hn2, hdrop, List.take_append_of_le_length hn, List.take_append_of_le_length hb,
      List.drop_append_of_le_length hb, ih2, he]
    have hlen : off + textLen s + (i + 2) + ((s.drop (textLen s)).drop (i + 2)).length =
        off + s.length := by
      simp only [List.length_drop] at hb ⊢
      omega
    rw [hlen]
    have e2 : textItem off (s.take (textLen s)) ++
        ⟨itemComment, ((off + textLen s : Nat) : Int), (s.drop (textLen s)).take (i + 2)⟩ ::
          (pre ++ [last]) =
        (textItem off (s.take (textLen s)) ++
          ⟨itemComment, ((off + textLen s : Nat) : Int), (s.drop (textLen s)).take (i + 2)⟩ ::
            pre) ++ [last] := by simp
    rw [e2, List.dropLast_concat, List.dropLast_concat]
    simp

theorem scan_name (name input : GoString) : scan name input = scan [] input := by
  rw [scan_eq, scan_eq]

theorem tokensFrom_lone_slash (off : Nat) (r : GoString) (hr : r.head? ≠ some 42) :
    tokensFrom off (47 :: r) = [⟨itemError, (off : Int), ascii "invalid comment"⟩] := by
  have hn0 : textLen (47 :: r) = 0 := by simp [textLen]
  have hp : hasPrefix (47 :: r) startComment = false := by
    rw [startComment_eq]
    cases r with
    | nil => simp [hasPrefix]
    | cons b t =>
      have hb : b ≠ 42 := by
        intro hb; exact hr (by simp [hb])
      simp [hasPrefix, hb]
  rw [tokensFrom_invalid off _ (by rw [hn0]; simp) (by rw [hn0]; exact hp), hn0]
  simp [textItem]

theorem tokensFrom_unclosed_head (off : Nat) (r : GoString)
    (hi : indexOf (startComment ++ r) endComment = none) :
    tokensFrom off (startComment ++ r) =
      [⟨itemError, (off : Int), ascii "unclosed comment"⟩] := by
  have hn0 : textLen (startComment ++ r) = 0 := by rw [startComment_eq]; simp [textLen]
  have hp : hasPrefix (startComment ++ r) startComment = true :=
    hasPrefix_append startComment r startComment (by decide)
  rw [tokensFrom_unclosed off _ (by rw [hn0, startComment_eq]; simp) (by rw [hn0]; exact hp)
    (by rw [hn0]; exact hi), hn0]
  simp [textItem]

/-- The unclosed comment that `lexComment` recognises: when `p` scans to `itemEOF`
and `endComment` occurs nowhere in `startComment ++ r` (the search starts at the
opening `/`), the scan of `p ++ startComment ++ r` emits the non-terminal tokens of
`p` and then the error "unclosed comment" at offset `len(p)`. -/
theorem unclosed_from_opener (name p r : GoString)
    (hp : lastTyp (scan name p) = some itemEOF)
    (hi : indexOf (startComment ++ r) endComment = none) :
    scan name (p ++ (startComment ++ r)) =
      (scan name p).dropLast ++ [⟨itemError, (p.length : Int), ascii "unclosed comment"⟩] := by
  rw [scan_eq] at hp
  have e : startComment ++ r = 47 :: (42 :: r) := by rw [startComment_eq]; rfl
  rw [scan_eq, scan_eq, e, tokensFrom_append_slash 0 p _ hp, ← e,
    tokensFrom_unclosed_head _ r hi]
  simp

/-- C3 (unclosed comment), evaluated at the input `/*/`, which is
`p ++ "/*" ++ r` for `p` empty and `r = "/"`: `p` scans to `itemEOF` and `r` holds no
`*/`, yet the scan emits the comment token `/*/` followed by `itemEOF` and no error,
because `lexComment` searches `endComment` from the opening `/` and finds it at
offset 1, sharing the `*` of the opener. -/
theorem unclosed_comment_overlap (name : GoString) :
    lastTyp (scan name []) = some itemEOF ∧
    indexOf (ascii "/") endComment = none ∧
    scan name ([] ++ startComment ++ ascii "/") =
      [⟨itemComment, 0, ascii "/*/"⟩, ⟨itemEOF, 3, []⟩] := by
  rw [scan_name name [], scan_name name ([] ++ startComment ++ ascii "/")]
  decide

/-- C4 (invalid comment): when `p` scans to `itemEOF` and `r` is empty or begins
with a byte other than `*` (the first byte of `r`, if any, is not 42), the scan of
`p ++ "/" ++ r` emits the non-terminal tokens of the scan of `p` followed by exactly
one `itemError` token, with value "invalid comment" (at offset `len(p)`), and
nothing after it. -/
theorem invalid_comment (name p r : GoString)
    (hp : lastTyp (scan name p) = some itemEOF) (hr : r.head? ≠ some 42) :
    scan name (p ++ 47 :: r) =
      (scan name p).dropLast ++ [⟨itemError, (p.length : Int), ascii "invalid comment"⟩] := by
  rw [scan_eq] at hp
  rw [scan_eq, scan_eq, tokensFrom_append_slash 0 p r hp, tokensFrom_lone_slash _ r hr]
  simp

theorem invalid_comment_witness :
    lastTyp (scan [] (ascii "a/*b*/c")) = some itemEOF ∧ (ascii "/d").head? ≠ some 42 ∧
      scan [] (ascii "a/*b*/c" ++ 47 :: ascii "/d") =
        (scan [] (ascii "a/*b*/c")).dropLast ++
          [⟨itemError, ((ascii "a/*b*/c").length : Int), ascii "invalid comment"⟩] :=
  ⟨by decide, by decide, invalid_comment [] (ascii "a/*b*/c") (ascii "/d") (by decide) (by decide)⟩

/-- C7 (adjacency): when the input is two complete comments `c1`, `c2` followed by
anything, the first two tokens of the scan are the comment `c1` at position 0 and
the comment `c2` at position `len(c1)`, with no token between them. -/
theorem adjacent_comments (name c1 c2 rest : GoString) (h1 : isComment c1)
    (h2 : isComment c2) :
    ∃ tl, scan name (c1 ++ c2 ++ rest) =
      ⟨itemComment, 0, c1⟩ :: ⟨itemComment, (c1.length : Int), c2⟩ :: tl := by
  refine ⟨tokensFrom (0 + c1.length + c2.length) rest, ?_⟩
  rw [scan_eq, List.append_assoc, tokensFrom_comment_head 0 c1 _ h1,
    tokensFrom_comment_head _ c2 _ h2]
  simp

theorem adjacent_comments_witness :
    isComment (ascii "/*a*/") ∧ isComment (ascii "/*/") ∧
      ∃ tl, scan [] (ascii "/*a*/" ++ ascii "/*/" ++ ascii "x") =
        ⟨itemComment, 0, ascii "/*a*/"⟩ ::
          ⟨itemComment, ((ascii "/*a*/").length : Int), ascii "/*/"⟩ :: tl :=
  ⟨by decide, by decide,
    adjacent_comments [] (ascii "/*a*/") (ascii "/*/") (ascii "x") (by decide) (by decide)⟩

/-! ## The error position -/

theorem take_take_take (s : GoString) (a b c : Nat) :
    s.take a ++ ((s.drop a).take b ++ ((s.drop a).drop b).take c) = s.take (a + b + c) := by
  rw [List.take_add s (a + b) c, List.take_add s a b, List.drop_drop, List.append_assoc]

theorem drop_drop_drop (s : GoString) (a b c : Nat) :
    ((s.drop a).drop b).drop c = s.drop (a + b + c) := by
  rw [List.drop_drop, List.drop_drop, Nat.add_assoc]

theorem head_drop_textLen (s : GoString) (h : s.drop (textLen s) ≠ []) :
    (s.drop (textLen s)).head? = some 47 ∧ textLen s < s.length := by
  constructor
  · rcases drop_textLen s with h0 | ⟨r, hr⟩
    · exact absurd h0 h
    · rw [hr]; rfl
  · by_contra hlt
    exact h (List.drop_eq_nil_of_le (by omega))

theorem tokens_before_error (off : Nat) (s : GoString) :
    ∀ pre e, tokensFrom off s = pre ++ [e] → e.typ = itemError →
      ∃ q : Nat, e.pos = ((off + q : Nat) : Int) ∧ concatVals pre = s.take q ∧ q < s.length ∧
        (s.drop q).head? = some 47 := by
  refine tokensFrom_induct (fun off s toks => ∀ pre e, toks = pre ++ [e] → e.typ = itemError →
      ∃ q : Nat, e.pos = ((off + q : Nat) : Int) ∧ concatVals pre = s.take q ∧ q < s.length ∧
        (s.drop q).head? = some 47) ?_ ?_ ?_ ?_ off s
  · intro off s _ pre e h he
    obtain ⟨_, h2⟩ := List.append_inj' h rfl
    have h3 : e = ⟨itemEOF, ((off + textLen s : Nat) : Int), []⟩ := by
      simpa using h2.symm
    rw [h3] at he
    cases he
  · intro off s hd _ pre e h _
    obtain ⟨h1, h2⟩ := List.append_inj' h rfl
    have h3 : e = ⟨itemError, ((off + textLen s : Nat) : Int), ascii "invalid comment"⟩ := by
      simpa using h2.symm
    obtain ⟨hh, hlt⟩ := head_drop_textLen s hd
    refine ⟨textLen s, by rw [h3], ?_, hlt, hh⟩
    rw [← h1, concatVals_textItem]
  · intro off s hd _ _ pre e h _
    obtain ⟨h1, h2⟩ := List.append_inj' h rfl
    have h3 : e = ⟨itemError, ((off + textLen s : Nat) : Int), ascii "unclosed comment"⟩ := by
      simpa using h2.symm
    obtain ⟨hh, hlt⟩ := head_drop_textLen s hd
    refine ⟨textLen s, by rw [h3], ?_, hlt, hh⟩
    rw [← h1, concatVals_textItem]
  · intro off s i hd _ hi ih pre e h he
    obtain ⟨pre1, last, he1, _, _⟩ := tokens_terminal (off + textLen s + (i + 2))
      ((s.drop (textLen s)).drop (i + 2))
    rw [he1] at h
    have e2 : textItem off (s.take (textLen s)) ++
        ⟨itemComment, ((off + textLen s : Nat) : Int), (s.drop (textLen s)).take (i + 2)⟩ ::
          (pre1 ++ [last]) =
        (textItem off (s.take (textLen s)) ++
          ⟨itemComment, ((off + textLen s : Nat) : Int), (s.drop (textLen s)).take (i + 2)⟩ ::
            pre1) ++ [last] := by simp
    rw [e2] at h
    obtain ⟨h1, h2⟩ := List.append_inj' h rfl
    have h3 : last = e := by simpa using h2
    subst h3
    obtain ⟨q, hq1, hq2, hq3, hq4⟩ := ih pre1 last he1 he
    have hb := indexOf_bound _ _ _ hi
    rw [endComment_length] at hb
    have hn := textLen_le s
    simp only [List.length_drop] at hb hq3
    refine ⟨textLen s + (i + 2) + q, ?_, ?_, by omega, ?_⟩
    · rw [hq1]; congr 1; omega
    · have hc : concatVals (⟨itemComment, ((off + textLen s : Nat) : Int),
          (s.drop (textLen s)).take (i + 2)⟩ :: pre1) =
          (s.drop (textLen s)).take (i + 2) ++ concatVals pre1 := by
        simp [concatVals, isValue]
      rw [← h1, concatVals_append, concatVals_textItem, hc, hq2]
      exact take_take_take s _ _ _
    · rw [← drop_drop_drop]; exact hq4

/-! ## Positions -/

theorem Tiles_textItem (off n : Nat) (s : GoString) (rest : List item) (hn : n ≤ s.length)
    (h : Tiles (off + n) (s.drop n) rest) : Tiles off s (textItem off (s.take n) ++ rest) := by
  have hl : (s.take n).length = n := by rw [List.length_take]; omega
  unfold textItem
  split_ifs with h0
  · have : n = 0 := by rw [h0] at hl; simpa using hl.symm
    subst this
    simpa using h
  · simp only [List.singleton_append, Tiles, isValue, hl]
    simp only [beq_self_eq_true, Bool.true_or, if_true]
    exact ⟨trivial, trivial, hn, h⟩

theorem tokens_tiles (off : Nat) (s : GoString) : Tiles off s (tokensFrom off s) := by
  refine tokensFrom_induct (fun off s toks => Tiles off s toks) ?_ ?_ ?_ ?_ off s
  · intro off s _
    exact Tiles_textItem off _ s _ (textLen_le s) (by simp [Tiles, isValue])
  · intro off s _ _
    exact Tiles_textItem off _ s _ (textLen_le s) (by simp [Tiles, isValue])
  · intro off s _ _ _
    exact Tiles_textItem off _ s _ (textLen_le s) (by simp [Tiles, isValue])
  · intro off s i _ _ hi ih
    have hb := indexOf_bound _ _ _ hi
    rw [endComment_length] at hb
    have hl : ((s.drop (textLen s)).take (i + 2)).length = i + 2 := by
      rw [List.length_take]; omega
    refine Tiles_textItem off _ s _ (textLen_le s) ?_
    simp only [Tiles, isValue, hl]
    simp only [beq_self_eq_true, Bool.or_true, if_true]
    exact ⟨trivial, trivial, hb, ih⟩

theorem Tiles_head (off : Nat) (s : GoString) (t : item) (ts : List item)
    (h : Tiles off s (t :: ts)) : t.pos = (off : Int) := by
  simp only [Tiles] at h
  exact h.1

theorem Tiles_slice (input : GoString) : ∀ (toks : List item) (off : Nat),
    Tiles off (input.drop off) toks →
    ∀ t ∈ toks, isValue t = true → t.val = slice input t.pos (t.pos + (t.val.length : Int)) := by
  intro toks
  induction toks with
  | nil => intro off _ t ht; simp at ht
  | cons x xs ih =>
    intro off h t ht hv
    simp only [Tiles] at h
    obtain ⟨hpos, hrest⟩ := h
    rcases List.mem_cons.mp ht with rfl | ht
    · rw [if_pos hv] at hrest
      have e : (t.pos + (t.val.length : Int) - t.pos).toNat = t.val.length := by omega
      unfold slice
      rw [e, hpos, Int.toNat_ofNat]
      exact hrest.1
    · by_cases hx : isValue x = true
      · rw [if_pos hx] at hrest
        have h2 := hrest.2.2
        rw [List.drop_drop] at h2
        exact ih _ h2 t ht hv
      · rw [if_neg hx] at hrest
        rw [hrest] at ht
        simp at ht

theorem Tiles_chain : ∀ (toks : List item) (off : Nat) (s : GoString), Tiles off s toks →
    ∀ pre a b post, toks = pre ++ a :: b :: post → b.pos = a.pos + (a.val.length : Int) := by
  intro toks
  induction toks with
  | nil => intro off s _ pre a b post h; simp at h
  | cons x xs ih =>
    intro off s h pre a b post heq
    simp only [Tiles] at h
    obtain ⟨hpos, hrest⟩ := h
    by_cases hx : isValue x = true
    · rw [if_pos hx] at hrest
      cases pre with
      | nil =>
        simp only [List.nil_append, List.cons.injEq] at heq
        obtain ⟨rfl, rfl⟩ := heq
        have := Tiles_head _ _ _ _ hrest.2.2
        rw [this, hpos]
        push_cast; rfl
      | cons y ys =>
        simp only [List.cons_append, List.cons.injEq] at heq
        exact ih _ _ hrest.2.2 ys a b post heq.2
    · rw [if_neg hx] at hrest
      subst hrest
      cases pre with
      | nil => simp at heq
      | cons y ys =>
        simp only [List.cons_append, List.cons.injEq] at heq
        have := congrArg List.length heq.2
        simp at this
        omega

/-- C5 (prefix on error): when the scan of `input` ends in an `itemError` token with
position `p`, the values of the text and comment tokens emitted before it,
concatenated, are `input[0:p]`, `0 ≤ p < len(input)`, and the byte of the input at
offset `p` is `/`. -/
theorem prefix_on_error (name input : GoString) (pre : List item) (e : item)
    (h : scan name input = pre ++ [e]) (he : e.typ = itemError) :
    concatVals pre = slice input 0 e.pos ∧ 0 ≤ e.pos ∧ e.pos < (input.length : Int) ∧
      input[e.pos.toNat]? = some 47 := by
  rw [scan_eq] at h
  obtain ⟨q, hq1, hq2, hq3, hq4⟩ := tokens_before_error 0 input pre e h he
  have hp : e.pos = (q : Int) := by rw [hq1]; simp
  rw [List.head?_drop] at hq4
  refine ⟨?_, by omega, by omega, ?_⟩
  · rw [hq2, hp]; simp [slice]
  · rw [hp, Int.toNat_ofNat]; exact hq4

theorem prefix_on_error_witness :
    scan [] (ascii "a/*b*/c/*d") =
        [⟨itemText, 0, ascii "a"⟩, ⟨itemComment, 1, ascii "/*b*/"⟩, ⟨itemText, 6, ascii "c"⟩] ++
          [⟨itemError, 7, ascii "unclosed comment"⟩] ∧
      (⟨itemError, 7, ascii "unclosed comment"⟩ : item).typ = itemError ∧
      (concatVals [⟨itemText, 0, ascii "a"⟩, ⟨itemComment, 1, ascii "/*b*/"⟩,
          ⟨itemText, 6, ascii "c"⟩] = slice (ascii "a/*b*/c/*d") 0 7 ∧
        (0 : Int) ≤ 7 ∧ (7 : Int) < ((ascii "a/*b*/c/*d").length : Int) ∧
        (ascii "a/*b*/c/*d")[(7 : Int).toNat]? = some 47) :=
  ⟨by decide, rfl,
    prefix_on_error [] (ascii "a/*b*/c/*d")
      [⟨itemText, 0, ascii "a"⟩, ⟨itemComment, 1, ascii "/*b*/"⟩, ⟨itemText, 6, ascii "c"⟩]
      ⟨itemError, 7, ascii "unclosed comment"⟩ (by decide) rfl⟩

/-- C8 (positions and values): the first token of a scan has position 0; every
`itemText` or `itemComment` token with position `q` and value `v` has
`v = input[q : q+len(v)]`; and a token that follows a token with position `q` and
value `v` has position `q + len(v)`. -/
theorem positions_tile (name input : GoString) :
    (scan name input).head?.map item.pos = some 0 ∧
    (∀ t ∈ scan name input, isValue t = true →
      t.val = slice input t.pos (t.pos + (t.val.length : Int))) ∧
    (∀ pre a b post, scan name input = pre ++ a :: b :: post →
      b.pos = a.pos + (a.val.length : Int)) := by
  rw [scan_eq]
  have ht := tokens_tiles 0 input
  refine ⟨?_, ?_, ?_⟩
  · obtain ⟨pre, last, he, _, _⟩ := tokens_terminal 0 input
    cases hts : tokensFrom 0 input with
    | nil => rw [hts] at he; simp at he
    | cons t ts =>
      rw [hts] at ht
      have := Tiles_head _ _ _ _ ht
      simp [this]
  · exact Tiles_slice input _ 0 (by simpa using ht)
  · exact Tiles_chain _ 0 input ht

/-! ## The consumer -/

/-- Receiving as many items as the channel holds returns them in order and leaves
the channel empty; only `items` and `lastPos` of the lexer change. -/
theorem nextItems_all : ∀ (its : List item) (l : lexer), l.items = its →
    ∃ l1, nextItems its.length l = some (its, l1) ∧
      l1 = { l with items := [], lastPos := (its.getLast?.map item.pos).getD l.lastPos } := by
  intro its
  induction its with
  | nil =>
    intro l h
    refine ⟨l, rfl, ?_⟩
    cases l
    simp_all
  | cons x xs ih =>
    intro l h
    have hn : nextItem l = some (x, { l with items := xs, lastPos := x.pos }) := by
      simp [nextItem, h]
    obtain ⟨l1, h1, h2⟩ := ih { l with items := xs, lastPos := x.pos } rfl
    refine ⟨l1, ?_, ?_⟩
    · simp [nextItems, hn, h1]
    · rw [h2]
      cases xs with
      | nil => simp
      | cons y ys =>
        cases hl : (y :: ys).getLast? with
        | none => simp at hl
        | some z => simp [List.getLast?_cons_cons, hl]

theorem nextItem_closed (l : lexer) (hi : l.items = []) (hc : l.closed = true) :
    nextItem l = some (zeroItem, { l with lastPos := 0 }) := by
  simp [nextItem, hi, hc, zeroItem]

theorem nextItems_closed (l : lexer) (hi : l.items = []) (hc : l.closed = true)
    (hl : l.lastPos = 0) : ∀ n, nextItems n l = some (List.replicate n zeroItem, l) := by
  intro n
  induction n with
  | zero => rfl
  | succ n ih =>
    have e : ({ l with lastPos := 0 } : lexer) = l := by
      cases l; simp_all
    simp [nextItems, nextItem_closed l hi hc, e, ih, List.replicate_succ]

/-- C10 as stated fails: on the input `a` the terminal token `itemEOF` has position
1, so `lastPos` is 1 once `nextItem` has returned it; the next call of `nextItem`
returns an item (the zero item, of kind `itemError`) and sets `lastPos` to 0, so the
lexer is not left unchanged. -/
theorem zero_item_after_end :
    ∃ l0 l r, run (scanFuel (ascii "a")) (newLexer [] (ascii "a")) = some l0 ∧
      nextItems 2 l0 = some ([⟨itemText, 0, ascii "a"⟩, ⟨itemEOF, 1, []⟩], l) ∧
      nextItem l = some r ∧ r.1 = zeroItem ∧ r.1.typ = itemError ∧
      l.lastPos = 1 ∧ r.2.lastPos = 0 ∧ r.2 ≠ l :=
  ⟨_, _, _, rfl, rfl, rfl, rfl, rfl, rfl, rfl, by decide⟩

/-- C10 (calls after the end), amended: once `nextItem` has returned every item of
the scan, the terminal token last, the channel is empty and closed; a further call
of `nextItem` returns the zero item (no item of the scan) and changes nothing in the
lexer but `lastPos`, which it sets to 0; every call after that one returns the zero
item again and leaves the whole lexer unchanged. -/
theorem calls_after_end (name input : GoString) :
    ∃ l0 l, run (scanFuel input) (newLexer name input) = some l0 ∧
      nextItems (scan name input).length l0 = some (scan name input, l) ∧
      (scan name input).getLast?.map item.pos = some l.lastPos ∧
      l.items = [] ∧ l.closed = true ∧
      nextItem l = some (zeroItem, { l with lastPos := 0 }) ∧
      ∀ n, nextItems n { l with lastPos := 0 } =
        some (List.replicate n zeroItem, { l with lastPos := 0 }) := by
  obtain ⟨l0, hrun, hitems, hc, _⟩ := run_spec name input (scanFuel input) (le_refl _)
  rw [← scan_eq name input] at hitems
  obtain ⟨l, h1, h2⟩ := nextItems_all (scan name input) l0 hitems
  obtain ⟨pre, last, he, _, _⟩ := tokens_terminal 0 input
  rw [← scan_eq name input] at he
  have hi : l.items = [] := by rw [h2]
  have hcl : l.closed = true := by rw [h2]; exact hc
  refine ⟨l0, l, hrun, h1, ?_, hi, hcl, nextItem_closed l hi hcl, ?_⟩
  · rw [h2, he]; simp
  · exact nextItems_closed _ hi hcl rfl

/-! ## `next`, `peek` and `backup` -/

/-- C18: in a lexer state with `0 ≤ pos ≤ len(input)`, `next` followed at once by
`backup` leaves `pos` as it was (so `peek` does not move the cursor); at the end of
the input `next` returns `eof` with `width` 0 and neither call moves `pos`. -/
theorem next_backup (l : lexer) (h : 0 ≤ l.pos ∧ l.pos ≤ (l.input.length : Int)) :
    (backup (next l).1).pos = l.pos ∧ (peek l).1.pos = l.pos ∧
    (l.pos ≥ (l.input.length : Int) →
      (next l).2 = eof ∧ (next l).1.width = 0 ∧ (next l).1.pos = l.pos ∧
        (backup (next l).1).pos = l.pos) := by
  by_cases he : l.pos ≥ (l.input.length : Int)
  · rw [next_eof l he]
    simp [backup, peek, next_eof l he]
  · have hk : l.pos = ((l.pos.toNat : Nat) : Int) := by omega
    have hlt : l.pos.toNat < l.input.length := by omega
    refine ⟨?_, ?_, fun h2 => absurd h2 he⟩
    · rw [next_decode l _ hk hlt]
      simp only [backup]
      omega
    · simp only [peek]
      rw [next_decode l _ hk hlt]
      simp only [backup]
      omega

theorem next_backup_witness :
    ((0 : Int) ≤ (newLexer [] [0xC3, 0xA9, 47]).pos ∧
        (newLexer [] [0xC3, 0xA9, 47]).pos ≤ (((newLexer [] [0xC3, 0xA9, 47]).input.length : Nat) : Int)) ∧
      ((backup (next (newLexer [] [0xC3, 0xA9, 47])).1).pos = (newLexer [] [0xC3, 0xA9, 47]).pos ∧
        (peek (newLexer [] [0xC3, 0xA9, 47])).1.pos = (newLexer [] [0xC3, 0xA9, 47]).pos ∧
        ((newLexer [] [0xC3, 0xA9, 47]).pos ≥ (((newLexer [] [0xC3, 0xA9, 47]).input.length : Nat) : Int) →
          (next (newLexer [] [0xC3, 0xA9, 47])).2 = eof ∧
            (next (newLexer [] [0xC3, 0xA9, 47])).1.width = 0 ∧
            (next (newLexer [] [0xC3, 0xA9, 47])).1.pos = (newLexer [] [0xC3, 0xA9, 47]).pos ∧
            (backup (next (newLexer [] [0xC3, 0xA9, 47])).1).pos = (newLexer [] [0xC3, 0xA9, 47]).pos)) :=
  ⟨by decide, next_backup (newLexer [] [0xC3, 0xA9, 47]) (by decide)⟩

/-- C19: in a lexer state with `0 ≤ pos ≤ len(input)`, `next` returns `eof` exactly
when `pos ≥ len(input)`, and then leaves `pos` unchanged and sets `width` to 0;
otherwise it returns the rune decoded at `pos`, sets `width` to its width, which is
between 1 and 4, and adds it to `pos`, which stays at most `len(input)`; `start`
(like `input`) is never changed. -/
theorem next_spec (l : lexer) (h : 0 ≤ l.pos ∧ l.pos ≤ (l.input.length : Int)) :
    ((next l).2 = eof ↔ l.pos ≥ (l.input.length : Int)) ∧
    (l.pos ≥ (l.input.length : Int) → (next l).1.pos = l.pos ∧ (next l).1.width = 0) ∧
    (l.pos < (l.input.length : Int) →
      (next l).2 = (DecodeRuneInString (sliceFrom l.input l.pos)).1 ∧
      (next l).1.width = (DecodeRuneInString (sliceFrom l.input l.pos)).2 ∧
      1 ≤ (next l).1.width ∧ (next l).1.width ≤ 4 ∧
      (next l).1.pos = l.pos + (next l).1.width ∧
      (next l).1.pos ≤ (l.input.length : Int)) ∧
    (next l).1.start = l.start ∧ (next l).1.input = l.input := by
  by_cases he : l.pos ≥ (l.input.length : Int)
  · rw [next_eof l he]
    refine ⟨⟨fun _ => he, fun _ => rfl⟩, fun _ => ⟨rfl, rfl⟩, fun h2 => ?_, rfl, rfl⟩
    omega
  · have hk : l.pos = ((l.pos.toNat : Nat) : Int) := by omega
    have hlt : l.pos.toNat < l.input.length := by omega
    have hs : l.input.drop l.pos.toNat ≠ [] := by
      intro h0
      have := congrArg List.length h0
      simp at this; omega
    obtain ⟨wn, hw, h1, h4, hle, hr0, _, _, _⟩ := decode_facts (l.input.drop l.pos.toNat) hs
    simp only [List.length_drop] at hle
    have hn := next_decode l _ hk hlt
    have e2 : (next l).2 = (DecodeRuneInString (l.input.drop l.pos.toNat)).1 := by rw [hn]
    have ew : (next l).1.width = (wn : Int) := by rw [hn]; exact hw
    have ep : (next l).1.pos = l.pos + (wn : Int) := by
      rw [hn]
      show ((l.pos.toNat : Nat) : Int) + (DecodeRuneInString (l.input.drop l.pos.toNat)).2 = _
      rw [hw]; omega
    have es : (next l).1.start = l.start := by rw [hn]
    have ei : (next l).1.input = l.input := by rw [hn]
    have hsl : sliceFrom l.input l.pos = l.input.drop l.pos.toNat := rfl
    rw [hsl]
    refine ⟨⟨fun h2 => ?_, fun h2 => absurd h2 he⟩, fun h2 => absurd h2 he, fun _ => ?_, es, ei⟩
    · rw [e2] at h2; unfold eof at h2; omega
    · refine ⟨e2, by rw [ew, hw], by omega, by omega, by omega, by omega⟩

theorem next_spec_witness :
    ((0 : Int) ≤ (newLexer [] [0xC3, 0xA9, 47]).pos ∧
        (newLexer [] [0xC3, 0xA9, 47]).pos ≤ (((newLexer [] [0xC3, 0xA9, 47]).input.length : Nat) : Int)) ∧
      (next (newLexer [] [0xC3, 0xA9, 47])).1.width = 2 ∧
      (next (newLexer [] [0xC3, 0xA9, 47])).1.start = (newLexer [] [0xC3, 0xA9, 47]).start :=
  ⟨by decide, by decide, (next_spec (newLexer [] [0xC3, 0xA9, 47]) (by decide)).2.2.2.1⟩

/-- C17: once `nextItem` has returned every item of the scan, the terminal token
last, each further call of `nextItem` returns the zero item, whose kind is
`itemError` (the constant 0), whose position is 0 and whose value is empty, and
leaves `lastPos` at 0; a consumer that keeps calling after `itemEOF` therefore
receives tokens of kind `itemError`. -/
theorem zero_item_after_close (name input : GoString) :
    ∃ l0 l, run (scanFuel input) (newLexer name input) = some l0 ∧
      nextItems (scan name input).length l0 = some (scan name input, l) ∧
      (∀ n : Nat, ∃ l1, nextItems (n + 1) l = some (List.replicate (n + 1) zeroItem, l1) ∧
        l1.lastPos = 0) ∧
      zeroItem.typ = itemError ∧ itemType.code itemError = 0 ∧ zeroItem.pos = 0 ∧
      zeroItem.val = [] := by
  obtain ⟨l0, hrun, hitems, hc, _⟩ := run_spec name input (scanFuel input) (le_refl _)
  rw [← scan_eq name input] at hitems
  obtain ⟨l, h1, h2⟩ := nextItems_all (scan name input) l0 hitems
  have hi : l.items = [] := by rw [h2]
  have hcl : l.closed = true := by rw [h2]; exact hc
  refine ⟨l0, l, hrun, h1, ?_, rfl, rfl, rfl, rfl⟩
  intro n
  refine ⟨{ l with lastPos := 0 }, ?_, rfl⟩
  have hrest := nextItems_closed { l with lastPos := 0 } hi hcl rfl n
  simp [nextItems, nextItem_closed l hi hcl, hrest, List.replicate_succ]

/-! ## Shifting the scan -/

theorem textItem_shift (off d : Nat) (t : GoString) :
    textItem (off + d) t = (textItem off t).map (shift d) := by
  unfold textItem
  split_ifs
  · rfl
  · simp [shift]

/-- The scan of `s` entered at offset `off + d` is the scan entered at `off` with
every position increased by `d`. -/
theorem tokensFrom_shift (off : Nat) (s : GoString) :
    ∀ d : Nat, tokensFrom (off + d) s = (tokensFrom off s).map (shift d) := by
  refine tokensFrom_induct (fun off s toks => ∀ d : Nat,
    tokensFrom (off + d) s = toks.map (shift d)) ?_ ?_ ?_ ?_ off s
  · intro off s hd d
    rw [tokensFrom_eof (off + d) s hd, textItem_shift]
    simp [shift]; omega
  · intro off s hd hp d
    rw [tokensFrom_invalid (off + d) s hd hp, textItem_shift]
    simp [shift]; omega
  · intro off s hd hp hi d
    rw [tokensFrom_unclosed (off + d) s hd hp hi, textItem_shift]
    simp [shift]; omega
  · intro off s i hd hp hi ih d
    rw [tokensFrom_comment (off + d) s i hd hp hi, textItem_shift]
    have e : off + d + textLen s + (i + 2) = off + textLen s + (i + 2) + d := by omega
    rw [e, ih d]
    simp [shift]; omega

/-- C13 (compositionality): for `t` without `/`, a complete comment `c` and any
`rest`, the scan of `t ++ c ++ rest` is the text token `t` at position 0 (omitted
when `t` is empty), then the comment token `c` at position `len(t)`, then the scan
of `rest` with every position increased by `len(t) + len(c)`. -/
theorem compositional (name t c rest : GoString) (ht : (47 : Byte) ∉ t) (hc : isComment c) :
    scan name (t ++ c ++ rest) =
      (if t = [] then [] else [⟨itemText, 0, t⟩]) ++
        ⟨itemComment, (t.length : Int), c⟩ ::
          (scan name rest).map (shift (t.length + c.length)) := by
  obtain ⟨c1, hc1⟩ := hasPrefix_startComment c hc.1
  have e : t ++ c ++ rest = t ++ 47 :: (42 :: c1 ++ rest) := by rw [hc1]; simp
  have e2 : (47 : Byte) :: (42 :: c1 ++ rest) = c ++ rest := by rw [hc1]; simp
  rw [scan_eq, scan_eq, e, tokensFrom_text 0 t _ (fun b hb hb47 => ht (hb47 ▸ hb)), e2,
    tokensFrom_comment_head _ c rest hc]
  have e3 : 0 + t.length + c.length = 0 + (t.length + c.length) := by omega
  rw [e3, tokensFrom_shift 0 rest]
  simp [textItem]

theorem compositional_witness :
    (47 : Byte) ∉ ascii "ab" ∧ isComment (ascii "/*/") ∧
      scan [] (ascii "ab" ++ ascii "/*/" ++ ascii "c/") =
        (if ascii "ab" = [] then [] else [⟨itemText, 0, ascii "ab"⟩]) ++
          ⟨itemComment, ((ascii "ab").length : Int), ascii "/*/"⟩ ::
            (scan [] (ascii "c/")).map (shift ((ascii "ab").length + (ascii "/*/").length)) :=
  ⟨by decide, by decide,
    compositional [] (ascii "ab") (ascii "/*/") (ascii "c/") (by decide) (by decide)⟩

/-! ## The shape of comment tokens -/

theorem hasPrefix_take_eq (s p : GoString) (h : hasPrefix s p = true) : s.take p.length = p := by
  simp [hasPrefix] at h
  exact h.2

theorem hasPrefix_of_take (s p : GoString) (n : Nat) (h : hasPrefix (s.take n) p = true) :
    hasPrefix s p = true := by
  have hl := hasPrefix_length _ _ h
  have ht := hasPrefix_take_eq _ _ h
  rw [List.length_take] at hl
  rw [List.take_take, Nat.min_eq_left (by omega)] at ht
  simp [hasPrefix, ht]
  omega

theorem hasPrefix_take (s p : GoString) (n : Nat) (hn : p.length ≤ n)
    (h : hasPrefix s p = true) : hasPrefix (s.take n) p = true := by
  have hl := hasPrefix_length _ _ h
  have ht := hasPrefix_take_eq _ _ h
  have e : (s.take n).take p.length = p := by
    rw [List.take_take, Nat.min_eq_left hn, ht]
  simp [hasPrefix, e]
  omega

/-- The offset returned by `indexOf` is an occurrence, and the first one. -/
theorem indexOf_spec (sep : GoString) : ∀ (s : GoString) (i : Nat), indexOf s sep = some i →
    hasPrefix (s.drop i) sep = true ∧ ∀ j : Nat, j < i → hasPrefix (s.drop j) sep = false := by
  intro s
  induction s with
  | nil =>
    intro i h
    unfold indexOf at h
    split_ifs at h with hp
    cases h
    exact ⟨by simpa using hp, fun j hj => absurd hj (Nat.not_lt_zero j)⟩
  | cons b t ih =>
    intro i h
    unfold indexOf at h
    split_ifs at h with hp
    · cases h
      exact ⟨by simpa using hp, fun j hj => absurd hj (Nat.not_lt_zero j)⟩
    · cases hj : indexOf t sep with
      | none => simp [hj] at h
      | some k =>
        simp [hj] at h
        subst h
        obtain ⟨h1, h2⟩ := ih k hj
        refine ⟨by simpa using h1, ?_⟩
        intro j hjlt
        cases j with
        | zero => simpa using hp
        | succ j => simpa using h2 j (by omega)

theorem wellShaped_take (r : GoString) (i : Nat) (hp : hasPrefix r startComment = true)
    (hi : indexOf r endComment = some i) : wellShaped (r.take (i + 2)) := by
  have hb := indexOf_bound _ _ _ hi
  rw [endComment_length] at hb
  obtain ⟨h1, h2⟩ := indexOf_spec _ _ _ hi
  have hl : (r.take (i + 2)).length = i + 2 := by rw [List.length_take]; omega
  refine ⟨hasPrefix_take r _ _ (by rw [startComment_eq]; simp) hp, ?_, ?_⟩
  · rw [hl, Nat.add_sub_cancel, List.drop_take, Nat.add_sub_cancel_left]
    have := hasPrefix_take_eq _ _ h1
    rwa [endComment_length] at this
  · intro j hj
    rw [hl]
    have hlj := hasPrefix_length _ _ hj
    rw [endComment_length, List.length_drop, hl] at hlj
    rw [List.drop_take] at hj
    have hj2 := hasPrefix_of_take _ _ _ hj
    by_contra hne
    have hlt : j < i := by omega
    rw [h2 j hlt] at hj2
    cases hj2

theorem tokens_wellShaped (off : Nat) (s : GoString) :
    ∀ t ∈ tokensFrom off s, t.typ = itemComment → wellShaped t.val := by
  refine tokensFrom_induct (fun _ _ toks => ∀ t ∈ toks, t.typ = itemComment → wellShaped t.val)
    ?_ ?_ ?_ ?_ off s
  · intro off s _ t ht hty
    simp only [List.mem_append, List.mem_singleton] at ht
    rcases ht with ht | rfl
    · rw [(mem_textItem _ _ _ ht).1] at hty; cases hty
    · cases hty
  · intro off s _ _ t ht hty
    simp only [List.mem_append, List.mem_singleton] at ht
    rcases ht with ht | rfl
    · rw [(mem_textItem _ _ _ ht).1] at hty; cases hty
    · cases hty
  · intro off s _ _ _ t ht hty
    simp only [List.mem_append, List.mem_singleton] at ht
    rcases ht with ht | rfl
    · rw [(mem_textItem _ _ _ ht).1] at hty; cases hty
    · cases hty
  · intro off s i _ hp hi ih t ht hty
    simp only [List.mem_append, List.mem_cons] at ht
    rcases ht with ht | rfl | ht
    · rw [(mem_textItem _ _ _ ht).1] at hty; cases hty
    · exact wellShaped_take _ i hp hi
    · exact ih t ht hty

/-- C14 (comment shape): the value of every `itemComment` token of a scan begins
with `startComment`, ends with `endComment` (its last two bytes), and holds no
occurrence of `endComment` at any other offset. -/
theorem comment_shape (name input : GoString) (t : item) (ht : t ∈ scan name input)
    (hty : t.typ = itemComment) :
    hasPrefix t.val startComment = true ∧ t.val.drop (t.val.length - 2) = endComment ∧
      ∀ j : Nat, hasPrefix (t.val.drop j) endComment = true → j + 2 = t.val.length := by
  rw [scan_eq] at ht
  exact tokens_wellShaped 0 input t ht hty

theorem comment_shape_witness :
    (⟨itemComment, 1, ascii "/*/"⟩ : item) ∈ scan [] (ascii "a/*/*/") ∧
      (⟨itemComment, 1, ascii "/*/"⟩ : item).typ = itemComment ∧
      (hasPrefix (ascii "/*/") startComment = true ∧
        (ascii "/*/").drop ((ascii "/*/").length - 2) = endComment ∧
        ∀ j : Nat, hasPrefix ((ascii "/*/").drop j) endComment = true →
          j + 2 = (ascii "/*/").length) :=
  ⟨by decide, rfl, comment_shape [] (ascii "a/*/*/") ⟨itemComment, 1, ascii "/*/"⟩ (by decide) rfl⟩

/-! ## Where the slashes are -/

theorem textLen_le_of_slash (s : GoString) (i : Nat) (h : s[i]? = some 47) : textLen s ≤ i := by
  by_contra hlt
  have h2 : (s.take (textLen s))[i]? = some 47 := by
    rw [List.getElem?_take_of_lt (by omega)]; exact h
  have hm : (47 : Byte) ∈ s.take (textLen s) := List.mem_iff_getElem?.mpr ⟨i, h2⟩
  exact textLen_take_ne s 47 hm rfl

theorem tokens_text_noSlash (off : Nat) (s : GoString) :
    ∀ t ∈ tokensFrom off s, t.typ = itemText → (47 : Byte) ∉ t.val := by
  have key : ∀ (off : Nat) (s : GoString) (t : item), t ∈ textItem off (s.take (textLen s)) →
      (47 : Byte) ∉ t.val := by
    intro off s t ht hm
    rw [(mem_textItem _ _ _ ht).1] at hm
    exact textLen_take_ne s 47 hm rfl
  refine tokensFrom_induct (fun _ _ toks => ∀ t ∈ toks, t.typ = itemText → (47 : Byte) ∉ t.val)
    ?_ ?_ ?_ ?_ off s
  · intro off s _ t ht hty
    simp only [List.mem_append, List.mem_singleton] at ht
    rcases ht with ht | rfl
    · exact key off s t ht
    · cases hty
  · intro off s _ _ t ht hty
    simp only [List.mem_append, List.mem_singleton] at ht
    rcases ht with ht | rfl
    · exact key off s t ht
    · cases hty
  · intro off s _ _ _ t ht hty
    simp only [List.mem_append, List.mem_singleton] at ht
    rcases ht with ht | rfl
    · exact key off s t ht
    · cases hty
  · intro off s i _ _ _ ih t ht hty
    simp only [List.mem_append, List.mem_cons] at ht
    rcases ht with ht | rfl | ht
    · exact key off s t ht
    · cases hty
    · exact ih t ht hty

theorem tokens_slash_covered (off : Nat) (s : GoString) :
    ∀ i : Nat, s[i]? = some 47 →
      (∃ t ∈ tokensFrom off s, t.typ = itemComment ∧ t.pos ≤ ((off + i : Nat) : Int) ∧
        ((off + i : Nat) : Int) < t.pos + (t.val.length : Int)) ∨
      (∃ e ∈ tokensFrom off s, e.typ = itemError ∧ e.pos ≤ ((off + i : Nat) : Int)) := by
  refine tokensFrom_induct (fun off s toks => ∀ i : Nat, s[i]? = some 47 →
      (∃ t ∈ toks, t.typ = itemComment ∧ t.pos ≤ ((off + i : Nat) : Int) ∧
        ((off + i : Nat) : Int) < t.pos + (t.val.length : Int)) ∨
      (∃ e ∈ toks, e.typ = itemError ∧ e.pos ≤ ((off + i : Nat) : Int))) ?_ ?_ ?_ ?_ off s
  · intro off s hd i hi
    have hn := textLen_le_of_slash s i hi
    have hlen : i < s.length := (List.getElem?_eq_some.mp hi).1
    have : s.drop (textLen s) ≠ [] := by
      intro h0
      have := congrArg List.length h0
      simp at this; omega
    exact absurd hd this
  · intro off s _ _ i hi
    have hn := textLen_le_of_slash s i hi
    right
    exact ⟨_, List.mem_append_right _ (List.mem_singleton.mpr rfl), rfl, by
      show ((off + textLen s : Nat) : Int) ≤ _
      omega⟩
  · intro off s _ _ _ i hi
    have hn := textLen_le_of_slash s i hi
    right
    exact ⟨_, List.mem_append_right _ (List.mem_singleton.mpr rfl), rfl, by
      show ((off + textLen s : Nat) : Int) ≤ _
      omega⟩
  · intro off s k _ _ hk ih i hi
    have hn := textLen_le_of_slash s i hi
    have hb := indexOf_bound _ _ _ hk
    rw [endComment_length, List.length_drop] at hb
    by_cases hin : i < textLen s + (k + 2)
    · left
      refine ⟨_, List.mem_append_right _ (List.mem_cons_self _ _), rfl, ?_, ?_⟩
      · show ((off + textLen s : Nat) : Int) ≤ _
        omega
      · show _ < ((off + textLen s : Nat) : Int) +
          ((((s.drop (textLen s)).take (k + 2)).length : Nat) : Int)
        rw [List.length_take, List.length_drop]
        omega
    · have hi2 : ((s.drop (textLen s)).drop (k + 2))[i - (textLen s + (k + 2))]? = some 47 := by
        rw [List.getElem?_drop, List.getElem?_drop]
        have e : textLen s + (k + 2 + (i - (textLen s + (k + 2)))) = i := by omega
        rw [e]; exact hi
      have e2 : off + textLen s + (k + 2) + (i - (textLen s + (k + 2))) = off + i := by omega
      rcases ih _ hi2 with ⟨t, ht, h1, h2, h3⟩ | ⟨e, he, h1, h2⟩
      · left
        rw [e2] at h2 h3
        exact ⟨t, List.mem_append_right _ (List.mem_cons_of_mem _ ht), h1, h2, h3⟩
      · right
        rw [e2] at h2
        exact ⟨e, List.mem_append_right _ (List.mem_cons_of_mem _ he), h1, h2⟩

/-- C16 as stated fails: on the input `//` the scan stops with the error at
position 0, and the `/` at offset 1 lies neither inside a comment token nor at the
position of the error token. -/
theorem slash_behind_error :
    (ascii "//")[1]? = some 47 ∧
      ¬ ((∃ t ∈ scan [] (ascii "//"), t.typ = itemComment ∧ t.pos ≤ 1 ∧
            1 < t.pos + (t.val.length : Int)) ∨
          (∃ e ∈ scan [] (ascii "//"), e.typ = itemError ∧ e.pos = 1)) := by
  decide

/-- C16, amended: no `itemText` token of a scan holds the byte `/` in its value, and
every `/` of the input lies inside an `itemComment` token or at or behind the
position of the terminal `itemError` token. -/
theorem slashes_accounted (name input : GoString) :
    (∀ t ∈ scan name input, t.typ = itemText → (47 : Byte) ∉ t.val) ∧
    ∀ i : Nat, input[i]? = some 47 →
      (∃ t ∈ scan name input, t.typ = itemComment ∧ t.pos ≤ (i : Int) ∧
        (i : Int) < t.pos + (t.val.length : Int)) ∨
      (∃ e ∈ scan name input, e.typ = itemError ∧ e.pos ≤ (i : Int)) := by
  rw [scan_eq]
  refine ⟨tokens_text_noSlash 0 input, ?_⟩
  intro i hi
  have := tokens_slash_covered 0 input i hi
  simpa using this

/-! ## The cursor invariant -/

theorem next_cursor (l : lexer) (h : 0 ≤ l.pos ∧ l.pos ≤ (l.input.length : Int)) :
    (next l).1.input = l.input ∧ (next l).1.start = l.start ∧ l.pos ≤ (next l).1.pos ∧
      (next l).1.pos ≤ (l.input.length : Int) ∧ (next l).1.pos - (next l).1.width = l.pos := by
  by_cases he : l.pos ≥ (l.input.length : Int)
  · rw [next_eof l he]
    exact ⟨rfl, rfl, le_refl _, h.2, by simp⟩
  · have hk : l.pos = ((l.pos.toNat : Nat) : Int) := by omega
    have hlt : l.pos.toNat < l.input.length := by omega
    have hs : l.input.drop l.pos.toNat ≠ [] := by
      intro h0
      have := congrArg List.length h0
      simp at this; omega
    obtain ⟨wn, hw, h1, h4, hle, _⟩ := decode_facts (l.input.drop l.pos.toNat) hs
    simp only [List.length_drop] at hle
    have hn := next_decode l _ hk hlt
    have ew : (next l).1.width = (wn : Int) := by rw [hn]; exact hw
    have ep : (next l).1.pos = l.pos + (wn : Int) := by
      rw [hn]
      show ((l.pos.toNat : Nat) : Int) + (DecodeRuneInString (l.input.drop l.pos.toNat)).2 = _
      rw [hw]; omega
    refine ⟨by rw [hn], by rw [hn], by omega, by omega, by omega⟩

theorem cursorOk_next (l : lexer) (h : cursorOk l) : cursorOk (next l).1 := by
  obtain ⟨h1, h2, h3⟩ := h
  obtain ⟨hi, hs, hp, hq, _⟩ := next_cursor l ⟨by omega, h3⟩
  unfold cursorOk
  rw [hi, hs]
  exact ⟨h1, by omega, hq⟩

theorem cursorOk_backup_next (l : lexer) (h : cursorOk l) : cursorOk (backup (next l).1) := by
  obtain ⟨h1, h2, h3⟩ := h
  obtain ⟨hi, hs, hp, hq, hb⟩ := next_cursor l ⟨by omega, h3⟩
  unfold cursorOk backup
  simp only []
  rw [hi, hs, hb]
  exact ⟨h1, h2, h3⟩

theorem cursorOk_emit (l : lexer) (t : itemType) (h : cursorOk l) : cursorOk (emit l t) := by
  obtain ⟨h1, h2, h3⟩ := h
  unfold cursorOk emit send
  simp only []
  exact ⟨by omega, le_refl _, h3⟩

theorem cursorOk_emitPrev_next (l : lexer) (t : itemType) (h : cursorOk l) :
    cursorOk (emitPrev (next l).1 t) := by
  have hb := cursorOk_backup_next l h
  obtain ⟨h1, h2, h3⟩ := hb
  unfold emitPrev
  simp only []
  split_ifs
  · unfold cursorOk send
    simp only []
    exact ⟨by omega, le_refl _, h3⟩
  · exact ⟨h1, h2, h3⟩

theorem cursorOk_errorf (l : lexer) (msg : GoString) (h : cursorOk l) :
    cursorOk (errorf l msg).1 := h

theorem scanInv_next (input : GoString) (l : lexer) (h : scanInv input l) :
    scanInv input (next l).1 := by
  obtain ⟨hi, hc⟩ := h
  have h3 := hc.2.2
  have h1 := hc.1
  have h2 := hc.2.1
  exact ⟨by rw [(next_cursor l ⟨by omega, h3⟩).1, hi], cursorOk_next l hc⟩

theorem scanInv_backup_next (input : GoString) (l : lexer) (h : scanInv input l) :
    scanInv input (backup (next l).1) :=
  ⟨(scanInv_next input l h).1, cursorOk_backup_next l h.2⟩

theorem scanInv_emit (input : GoString) (l : lexer) (t : itemType) (h : scanInv input l) :
    scanInv input (emit l t) :=
  ⟨h.1, cursorOk_emit l t h.2⟩

theorem scanInv_emitPrev_next (input : GoString) (l : lexer) (t : itemType)
    (h : scanInv input l) : scanInv input (emitPrev (next l).1 t) := by
  refine ⟨?_, cursorOk_emitPrev_next l t h.2⟩
  have hi := (scanInv_next input l h).1
  unfold emitPrev
  simp only []
  split_ifs
  · exact hi
  · exact hi

/-- The states of a call of `lexText` keep the cursor invariant, and the last of
them is the state that `lexText` returns. -/
theorem lexTextStates_ok (input : GoString) (fuel : Nat) : ∀ (l : lexer) (r : lexer × Option stateFn), scanInv input l →
    lexText fuel l = some r →
    ∃ sts, lexTextStates fuel l = some sts ∧ sts.getLast? = some r.1 ∧ ∀ s ∈ sts, scanInv input s := by
  induction fuel with
  | zero => intro l r _ h; simp [lexText] at h
  | succ fuel ih =>
    intro l r hl h
    have hn := scanInv_next input l hl
    unfold lexText at h
    unfold lexTextStates
    simp only [] at h ⊢
    by_cases he : (next l).2 = eof
    · rw [if_pos he] at h ⊢
      by_cases hp : (next l).1.pos > (next l).1.start
      · rw [if_pos hp] at h ⊢
        cases h
        refine ⟨_, rfl, rfl, ?_⟩
        intro s hs
        simp only [List.mem_cons, List.mem_singleton, List.not_mem_nil, or_false] at hs
        rcases hs with rfl | rfl | rfl | rfl
        · exact hl
        · exact hn
        · exact scanInv_emit _ _ _ hn
        · exact scanInv_emit _ _ _ (scanInv_emit _ _ _ hn)
      · rw [if_neg hp] at h ⊢
        cases h
        refine ⟨_, rfl, rfl, ?_⟩
        intro s hs
        simp only [List.mem_cons, List.mem_singleton, List.not_mem_nil, or_false] at hs
        rcases hs with rfl | rfl | rfl
        · exact hl
        · exact hn
        · exact scanInv_emit _ _ _ hn
    · rw [if_neg he] at h ⊢
      by_cases h47 : (next l).2 = 47
      · rw [if_pos h47] at h ⊢
        cases h
        refine ⟨_, rfl, rfl, ?_⟩
        intro s hs
        simp only [List.mem_cons, List.mem_singleton, List.not_mem_nil, or_false] at hs
        rcases hs with rfl | rfl | rfl | rfl
        · exact hl
        · exact hn
        · exact scanInv_backup_next input l hl
        · exact scanInv_emitPrev_next input l _ hl
      · rw [if_neg h47] at h ⊢
        obtain ⟨sts, h1, h2, h3⟩ := ih _ r hn h
        refine ⟨l :: sts, by rw [h1]; rfl, ?_, ?_⟩
        · cases sts with
          | nil => simp at h2
          | cons x xs => rw [List.getLast?_cons_cons]; exact h2
        · intro s hs
          rcases List.mem_cons.mp hs with rfl | hs
          · exact hl
          · exact h3 s hs

/-- The states of a call of `lexComment` keep the cursor invariant, and the last of
them is the state that `lexComment` returns. -/
theorem lexCommentStates_ok (input : GoString) (l : lexer) (hl : scanInv input l) :
    (lexCommentStates l).getLast? = some (lexComment l).1 ∧
      ∀ s ∈ lexCommentStates l, scanInv input s := by
  unfold lexCommentStates lexComment
  by_cases hp : (! hasPrefix (sliceFrom l.input l.pos) startComment) = true
  · rw [if_pos hp, if_pos hp]
    refine ⟨rfl, ?_⟩
    intro s hs
    simp only [List.mem_cons, List.mem_singleton, List.not_mem_nil, or_false] at hs
    rcases hs with rfl | rfl
    · exact hl
    · exact hl
  · rw [if_neg hp, if_neg hp]
    simp only []
    by_cases hi : Index (sliceFrom l.input l.pos) endComment < 0
    · rw [if_pos hi, if_pos hi]
      refine ⟨rfl, ?_⟩
      intro s hs
      simp only [List.mem_cons, List.mem_singleton, List.not_mem_nil, or_false] at hs
      rcases hs with rfl | rfl
      · exact hl
      · exact hl
    · rw [if_neg hi, if_neg hi]
      have hl1 : scanInv input { l with pos := l.pos +
          (Index (sliceFrom l.input l.pos) endComment + (endComment.length : Int)) } := by
        refine ⟨hl.1, ?_⟩
        obtain ⟨h1, h2, h3⟩ := hl.2
        cases hk : indexOf (sliceFrom l.input l.pos) endComment with
        | none =>
          exact absurd ((Index_neg_iff _ _).mpr hk) hi
        | some k =>
          have hb := indexOf_bound _ _ _ hk
          rw [Index_of_some _ _ k hk]
          unfold sliceFrom at hb
          rw [List.length_drop] at hb
          unfold cursorOk
          simp only []
          refine ⟨h1, by omega, by omega⟩
      refine ⟨rfl, ?_⟩
      intro s hs
      simp only [List.mem_cons, List.mem_singleton, List.not_mem_nil, or_false] at hs
      rcases hs with rfl | rfl | rfl
      · exact hl
      · exact hl1
      · exact scanInv_emit _ _ _ hl1

/-- The states of the loop of `run` keep the cursor invariant, and the last of them
is the state in which the loop stops. -/
theorem runStates_ok (input : GoString) (fuel : Nat) : ∀ (l l1 : lexer), scanInv input l → runLoop fuel l = some l1 →
    ∃ sts, runStates fuel l = some sts ∧ sts.getLast? = some l1 ∧ ∀ s ∈ sts, scanInv input s := by
  induction fuel with
  | zero =>
    intro l l1 hl h
    unfold runLoop at h
    unfold runStates
    cases hst : l.state with
    | none =>
      rw [hst] at h
      cases h
      exact ⟨[l], rfl, rfl, by simpa using hl⟩
    | some f => rw [hst] at h; cases h
  | succ fuel ih =>
    intro l l1 hl h
    unfold runLoop at h
    unfold runStates
    cases hst : l.state with
    | none =>
      rw [hst] at h
      cases h
      exact ⟨[l], rfl, rfl, by simpa using hl⟩
    | some f =>
      rw [hst] at h
      simp only [] at h ⊢
      cases hc : f.call fuel l with
      | none => rw [hc] at h; cases h
      | some r =>
        rw [hc] at h
        simp only [] at h
        have hcall : ∃ sts, f.callStates fuel l = some sts ∧ sts.getLast? = some r.1 ∧
            ∀ s ∈ sts, scanInv input s := by
          cases f with
          | lexText => exact lexTextStates_ok input fuel l r hl hc
          | lexComment =>
            simp only [stateFn.call, Option.some.injEq] at hc
            obtain ⟨h1, h2⟩ := lexCommentStates_ok input l hl
            exact ⟨_, rfl, by rw [h1, hc], h2⟩
        obtain ⟨sts, hs1, hs2, hs3⟩ := hcall
        have hr : scanInv input r.1 := hs3 r.1 (List.mem_of_getLast?_eq_some hs2)
        obtain ⟨rest, hr1, hr2, hr3⟩ := ih _ l1 (by exact hr) h
        refine ⟨sts ++ rest, by rw [hs1]; simp only []; rw [hr1]; rfl, ?_, ?_⟩
        · cases rest with
          | nil => simp at hr2
          | cons x xs =>
            rw [List.getLast?_append_cons]
            exact hr2
        · intro s hs
          rcases List.mem_append.mp hs with hs | hs
          · exact hs3 s hs
          · exact hr3 s hs

theorem lexTextStates_head (fuel : Nat) : ∀ (l : lexer) (sts : List lexer),
    lexTextStates fuel l = some sts → sts.head? = some l := by
  cases fuel with
  | zero => intro l sts h; simp [lexTextStates] at h
  | succ fuel =>
    intro l sts h
    unfold lexTextStates at h
    simp only [] at h
    split_ifs at h
    · cases h; rfl
    · cases h; rfl
    · cases h; rfl
    · cases hr : lexTextStates fuel (next l).1 with
      | none => rw [hr] at h; cases h
      | some x => rw [hr] at h; cases h; rfl

theorem lexCommentStates_head (l : lexer) : (lexCommentStates l).head? = some l := by
  unfold lexCommentStates
  simp only []
  split_ifs <;> rfl

theorem runStates_head (fuel : Nat) (l : lexer) (sts : List lexer)
    (h : runStates fuel l = some sts) : sts.head? = some l := by
  cases fuel with
  | zero =>
    unfold runStates at h
    cases hst : l.state with
    | none => rw [hst] at h; cases h; rfl
    | some f => rw [hst] at h; cases h
  | succ fuel =>
    unfold runStates at h
    cases hst : l.state with
    | none => rw [hst] at h; cases h; rfl
    | some f =>
      rw [hst] at h
      simp only [] at h
      cases hc : f.call fuel l with
      | none => rw [hc] at h; cases h
      | some r =>
        cases hs : f.callStates fuel l with
        | none => rw [hc, hs] at h; cases h
        | some cs =>
          rw [hc, hs] at h
          simp only [] at h
          have hh : cs.head? = some l := by
            cases f with
            | lexText => exact lexTextStates_head fuel l cs hs
            | lexComment =>
              simp only [stateFn.callStates, Option.some.injEq] at hs
              rw [← hs]; exact lexCommentStates_head l
          cases hr : runStates fuel { r.1 with state := r.2 } with
          | none => simp only [] at hr; rw [hr] at h; cases h
          | some rest =>
            simp only [] at hr
            rw [hr] at h
            cases h
            cases cs with
            | nil => cases hh
            | cons x xs => exact hh

/-- C15 (cursor invariant): on every input the loop of `run` stops, and every state
the lexer goes through on the way (before and after each call of `next`, `emit`,
`emitPrev`, `errorf` and of each state function, and inside `emitPrev` after its
`backup`) has `0 <= start <= pos <= len(input)`: the slices `input[start:pos]` and
`input[pos:]` taken in these states are in bounds. -/
theorem cursor_invariant (name input : GoString) :
    ∃ sts l, runStates (scanFuel input)
        { newLexer name input with state := some stateFn.lexText } = some sts ∧
      runLoop (scanFuel input) { newLexer name input with state := some stateFn.lexText } =
        some l ∧
      sts.head? = some { newLexer name input with state := some stateFn.lexText } ∧
      sts.getLast? = some l ∧
      ∀ s ∈ sts, s.input = input ∧ 0 ≤ s.start ∧ s.start ≤ s.pos ∧
        s.pos ≤ (input.length : Int) := by
  obtain ⟨l, hrun, _⟩ := runLoop_lexText input.length
    { newLexer name input with state := some stateFn.lexText } 0 (scanFuel input)
    (by simp [newLexer]) rfl rfl rfl (by simp) (by simp [scanFuel, newLexer])
  have h0 : scanInv input { newLexer name input with state := some stateFn.lexText } :=
    ⟨rfl, le_refl _, le_refl _, by simp [newLexer]⟩
  obtain ⟨sts, h1, h2, h3⟩ := runStates_ok input _ _ l h0 hrun
  exact ⟨sts, l, h1, hrun, runStates_head _ _ _ h1, h2, fun s hs => ⟨(h3 s hs).1,
    by rw [← (h3 s hs).1]; exact (h3 s hs).2⟩⟩

/-! ## The asset server -/

/-- C12 (asset server defaults): after `Init`, `AssetURL` is `/assets/` if it was
empty and unchanged otherwise, `AssetPath` is `./assets` if it was empty and
unchanged otherwise, `ServeMux` is the default mux if it was nil and unchanged
otherwise, and `RunMode` is unchanged. -/
theorem init_defaults (accepts : MuxTest) (config : Config) (s : Server) :
    (Init accepts config s).1.AssetURL =
      (if config.AssetURL = [] then ascii "/assets/" else config.AssetURL) ∧
    (Init accepts config s).1.AssetPath =
      (if config.AssetPath = [] then ascii "./assets" else config.AssetPath) ∧
    (Init accepts config s).1.ServeMux =
      (if config.ServeMux = none then some MuxRef.DefaultServeMux else config.ServeMux) ∧
    (Init accepts config s).1.RunMode = config.RunMode := by
  obtain ⟨mode, url, path, mux⟩ := config
  cases mux with
  | none =>
    by_cases hu : url = [] <;> by_cases hp : path = [] <;>
      simp [Init, hu, hp, defaultAssetsURL, defaultAssetPath]
  | some m =>
    by_cases hu : url = [] <;> by_cases hp : path = [] <;>
      simp [Init, hu, hp, defaultAssetsURL, defaultAssetPath]

/-! ## Paths -/

theorem splitSlash_ne_nil (s : GoString) : splitSlash s ≠ [] := by
  induction s with
  | nil => simp [splitSlash]
  | cons b t ih =>
    unfold splitSlash
    split_ifs
    · simp
    · cases h : splitSlash t with
      | nil => simp
      | cons c cs => simp

theorem splitSlash_cons_of_ne (b : Byte) (t : GoString) (hb : b ≠ 47) :
    ∃ c cs, splitSlash t = c :: cs ∧ splitSlash (b :: t) = (b :: c) :: cs := by
  cases h : splitSlash t with
  | nil => exact absurd h (splitSlash_ne_nil t)
  | cons c cs =>
    refine ⟨c, cs, rfl, ?_⟩
    rw [splitSlash, if_neg hb, h]

theorem splitSlash_slash (t : GoString) : splitSlash (47 :: t) = [] :: splitSlash t := by
  rw [splitSlash, if_pos rfl]

theorem splitSlash_append (a b : GoString) :
    splitSlash (a ++ 47 :: b) = splitSlash a ++ splitSlash b := by
  induction a with
  | nil => simp [splitSlash]
  | cons x t ih =>
    by_cases hx : x = 47
    · subst hx
      rw [List.cons_append, splitSlash_slash, splitSlash_slash, ih]
      rfl
    · obtain ⟨c, cs, h1, h2⟩ := splitSlash_cons_of_ne x t hx
      obtain ⟨c2, cs2, h3, h4⟩ := splitSlash_cons_of_ne x (t ++ 47 :: b) hx
      rw [List.cons_append, h4, h2]
      rw [ih, h1] at h3
      simp only [List.cons_append, List.cons.injEq] at h3
      rw [← h3.1, ← h3.2]
      rfl

theorem splitSlash_noSlash (c : GoString) (h : (47 : Byte) ∉ c) : splitSlash c = [c] := by
  induction c with
  | nil => rfl
  | cons x t ih =>
    have hx : x ≠ 47 := fun e => h (by simp [e])
    have ht : (47 : Byte) ∉ t := fun e => h (List.mem_cons_of_mem _ e)
    obtain ⟨c, cs, h1, h2⟩ := splitSlash_cons_of_ne x t hx
    rw [ih ht] at h1
    simp only [List.cons.injEq] at h1
    rw [h2, ← h1.1, ← h1.2]

theorem splitSlash_joinSlash (F : List GoString) (hne : F ≠ [])
    (h : ∀ c ∈ F, (47 : Byte) ∉ c) : splitSlash (joinSlash F) = F := by
  induction F with
  | nil => exact absurd rfl hne
  | cons c cs ih =>
    cases cs with
    | nil => simpa [joinSlash] using splitSlash_noSlash c (h c (by simp))
    | cons d ds =>
      have e : joinSlash (c :: d :: ds) = c ++ 47 :: joinSlash (d :: ds) := rfl
      rw [e, splitSlash_append, splitSlash_noSlash c (h c (by simp)),
        ih (by simp) (fun x hx => h x (List.mem_cons_of_mem _ hx))]
      rfl

theorem cleanStep_ordinary (r : Bool) (S : List GoString) (c : GoString) (h : ordinary c) :
    cleanStep r S c = S ++ [c] := by
  obtain ⟨h1, h2, h3, _⟩ := h
  simp [cleanStep, h1, h2, h3]

theorem cleanStep_empty (r : Bool) (S : List GoString) : cleanStep r S [] = S := by
  simp [cleanStep]

theorem cleanStep_dotdot (r : Bool) (S : List GoString) (n : GoString) (h : ordinary n) :
    cleanStep r (S ++ [n]) (ascii "..") = S := by
  have h3 := h.2.2.1
  have e1 : ¬ (ascii ".." = ([] : GoString) ∨ ascii ".." = ascii ".") := by decide
  unfold cleanStep
  rw [if_neg e1, if_pos rfl]
  simp [h3]

theorem foldl_ordinary (r : Bool) (F : List GoString) : ∀ S : List GoString,
    (∀ c ∈ F, ordinary c) → F.foldl (cleanStep r) S = S ++ F := by
  induction F with
  | nil => intro S _; simp
  | cons c cs ih =>
    intro S h
    rw [List.foldl_cons, cleanStep_ordinary r S c (h c (by simp)),
      ih _ (fun x hx => h x (List.mem_cons_of_mem _ hx))]
    simp

theorem joinSlash_cons (n : GoString) (F : List GoString) (hF : F ≠ []) :
    joinSlash (n :: F) = n ++ 47 :: joinSlash F := by
  cases F with
  | nil => exact absurd rfl hF
  | cons d ds => rfl

theorem joinSlash_ne_nil (F : List GoString) (hne : F ≠ []) (h : ∀ c ∈ F, ordinary c) :
    joinSlash F ≠ [] := by
  cases F with
  | nil => exact absurd rfl hne
  | cons c cs =>
    have hc := (h c (by simp)).1
    cases cs with
    | nil => simpa [joinSlash] using hc
    | cons d ds =>
      have e : joinSlash (c :: d :: ds) = c ++ 47 :: joinSlash (d :: ds) := rfl
      rw [e]; simp

/-- A rooted path of ordinary elements is clean. -/
theorem Clean_rooted (G : List GoString) (hne : G ≠ []) (h : ∀ c ∈ G, ordinary c) :
    Clean (47 :: joinSlash G) = 47 :: joinSlash G := by
  have hs : splitSlash (47 :: joinSlash G) = [] :: G := by
    rw [splitSlash_slash, splitSlash_joinSlash G hne (fun c hc => (h c hc).2.2.2)]
  unfold Clean
  simp only [hs, List.head?_cons, beq_self_eq_true, if_true, List.foldl_cons, cleanStep_empty]
  rw [foldl_ordinary true G [] h]
  simp

theorem Clean_rooted_twice (G : List GoString) (hne : G ≠ []) (h : ∀ c ∈ G, ordinary c) :
    Clean (47 :: 47 :: joinSlash G) = 47 :: joinSlash G := by
  have hs : splitSlash (47 :: 47 :: joinSlash G) = [] :: [] :: G := by
    rw [splitSlash_slash, splitSlash_slash,
      splitSlash_joinSlash G hne (fun c hc => (h c hc).2.2.2)]
  unfold Clean
  simp only [hs, List.head?_cons, beq_self_eq_true, if_true, List.foldl_cons, cleanStep_empty]
  rw [foldl_ordinary true G [] h]
  simp

/-- Joining the parent of a directory named `n` with a rooted path that begins with
`n` gives the same file as joining the directory with the rest of the path. -/
theorem Clean_parent (P n : GoString) (C F : List GoString) (hP : splitSlash P = C ++ [n])
    (hn : ordinary n) (hne : F ≠ []) (hF : ∀ c ∈ F, ordinary c) :
    Clean ((P ++ ascii "/..") ++ 47 :: (47 :: joinSlash (n :: F))) =
      Clean (P ++ 47 :: joinSlash F) := by
  have hPne : P ≠ [] := by
    intro h0
    rw [h0] at hP
    have h1 : ([[]] : List GoString) = C ++ [n] := hP
    cases C with
    | nil =>
      simp only [List.nil_append, List.cons.injEq, and_true] at h1
      exact hn.1 h1.symm
    | cons x xs =>
      have := congrArg List.length h1
      simp at this
  obtain ⟨p0, pt, hPc⟩ := List.exists_cons_of_ne_nil hPne
  have hnF : ∀ c ∈ n :: F, ordinary c := by
    intro c hc
    rcases List.mem_cons.mp hc with rfl | hc
    · exact hn
    · exact hF c hc
  have e1 : (P ++ ascii "/..") ++ 47 :: (47 :: joinSlash (n :: F)) =
      P ++ 47 :: (ascii ".." ++ 47 :: (47 :: joinSlash (n :: F))) := by
    have : ascii "/.." = 47 :: ascii ".." := by decide
    rw [this]; simp
  have hs1 : splitSlash ((P ++ ascii "/..") ++ 47 :: (47 :: joinSlash (n :: F))) =
      C ++ [n] ++ ([ascii ".."] ++ ([] :: (n :: F))) := by
    rw [e1, splitSlash_append, splitSlash_append, splitSlash_slash, hP,
      splitSlash_joinSlash (n :: F) (by simp) (fun c hc => (hnF c hc).2.2.2),
      splitSlash_noSlash (ascii "..") (by decide)]
  have hs2 : splitSlash (P ++ 47 :: joinSlash F) = C ++ [n] ++ F := by
    rw [splitSlash_append, hP, splitSlash_joinSlash F hne (fun c hc => (hF c hc).2.2.2)]
  have hh1 : ((P ++ ascii "/..") ++ 47 :: (47 :: joinSlash (n :: F))).head? = P.head? := by
    rw [hPc]; rfl
  have hh2 : (P ++ 47 :: joinSlash F).head? = P.head? := by
    rw [hPc]; rfl
  unfold Clean
  simp only [hs1, hs2, hh1, hh2, List.foldl_append, List.foldl_cons, List.foldl_nil,
    cleanStep_ordinary _ _ n hn, cleanStep_dotdot _ _ n hn, cleanStep_empty]

theorem hasPrefix_slash (t : GoString) : hasPrefix (47 :: t) (ascii "/") = true := by
  have : ascii "/" = [47] := by decide
  rw [this]
  simp [hasPrefix]

/-- The file opened for a request whose path is `/n/` followed by ordinary
elements, by the file server rooted at the parent of a directory named `n`. -/
theorem openedFile_parent (P n : GoString) (C F : List GoString)
    (hP : splitSlash P = C ++ [n]) (hn : ordinary n) (hne : F ≠ [])
    (hF : ∀ c ∈ F, ordinary c)
    (hidx : hasSuffix ((47 :: n ++ [47]) ++ joinSlash F) (ascii "/index.html") = false) :
    openedFile (P ++ ascii "/..") ((47 :: n ++ [47]) ++ joinSlash F) =
      some (Join P (joinSlash F)) := by
  have hnF : ∀ c ∈ n :: F, ordinary c := by
    intro c hc
    rcases List.mem_cons.mp hc with rfl | hc
    · exact hn
    · exact hF c hc
  have hu : (47 :: n ++ [47]) ++ joinSlash F = 47 :: joinSlash (n :: F) := by
    rw [joinSlash_cons n F hne]; simp
  have hPne : P ≠ [] := by
    intro h0
    rw [h0] at hP
    have h1 : ([[]] : List GoString) = C ++ [n] := hP
    cases C with
    | nil =>
      simp only [List.nil_append, List.cons.injEq, and_true] at h1
      exact hn.1 h1.symm
    | cons x xs =>
      have := congrArg List.length h1
      simp at this
  have hroot : P ++ ascii "/.." ≠ [] := by simp [hPne]
  have hj := joinSlash_ne_nil F hne hF
  rw [hu] at hidx ⊢
  unfold openedFile
  simp only [hasPrefix_slash, if_true, hidx, Bool.false_eq_true, if_false]
  unfold dirOpen
  rw [if_neg hroot, Clean_rooted _ (by simp) hnF, Clean_rooted_twice _ (by simp) hnF]
  unfold Join
  rw [if_neg hroot, if_neg (by simp), if_neg hPne, if_neg hj,
    Clean_parent P n C F hP hn hne hF]

theorem Handle_some (accepts : MuxTest) (s s1 : Server) (m : MuxRef) (pattern : GoString)
    (h : Handler) (hs : Handle accepts s m pattern h = some s1) :
    s1.fileServer = s.fileServer ∧ (m, pattern, h) ∈ s1.routes := by
  unfold Handle at hs
  split_ifs at hs
  cases hs
  simp

/-- What `Init` leaves when it returns: a mux that is not nil, the file server of
the parent of `AssetPath` in `fileServer`, and `serveAssets` registered under
`AssetURL`. -/
theorem Init_state (accepts : MuxTest) (config : Config) (s s1 : Server)
    (h : (Init accepts config s).2 = some s1) :
    ∃ m, (Init accepts config s).1.ServeMux = some m ∧
      s1.fileServer =
        some (Handler.FileServer ((Init accepts config s).1.AssetPath ++ ascii "/..")) ∧
      (m, (Init accepts config s).1.AssetURL, Handler.serveAssets) ∈ s1.routes := by
  obtain ⟨mode, url, path, mux⟩ := config
  cases mux with
  | none =>
    by_cases hu : url = [] <;> by_cases hp : path = [] <;>
      simp [Init, hu, hp] at h ⊢ <;>
      exact ⟨(Handle_some _ _ _ _ _ _ h).1, (Handle_some _ _ _ _ _ _ h).2⟩
  | some m =>
    by_cases hu : url = [] <;> by_cases hp : path = [] <;>
      simp [Init, hu, hp] at h ⊢ <;>
      exact ⟨(Handle_some _ _ _ _ _ _ h).1, (Handle_some _ _ _ _ _ _ h).2⟩

/-- C11 (asset server mapping), evaluated on the configuration
`AssetURL = "/static/"`, `AssetPath = "./public"`, `ServeMux = nil`, with nothing
registered before, on any mux that accepts the pattern `/static/`: `Init` returns
with the file server of `./public/..` in `fileServer` and `serveAssets` registered
under `/static/`, and the request for `/static/a.css` is served from the file
`static/a.css`, whereas the file `a.css` of `AssetPath` is `public/a.css`. -/
theorem asset_root_is_parent (accepts : MuxTest) (h : accepts [] (ascii "/static/") = true) :
    (Init accepts ⟨Mode.ProductionMode, ascii "/static/", ascii "./public", none⟩
        ⟨none, []⟩).2 =
      some ⟨some (Handler.FileServer (ascii "./public/..")),
        [(MuxRef.DefaultServeMux, ascii "/static/", Handler.serveAssets)]⟩ ∧
    serve ⟨some (Handler.FileServer (ascii "./public/..")),
        [(MuxRef.DefaultServeMux, ascii "/static/", Handler.serveAssets)]⟩
        Handler.serveAssets (ascii "/static/" ++ ascii "a.css") =
      some (ascii "static/a.css") ∧
    Join (ascii "./public") (ascii "a.css") = ascii "public/a.css" ∧
    serve ⟨some (Handler.FileServer (ascii "./public/..")),
        [(MuxRef.DefaultServeMux, ascii "/static/", Handler.serveAssets)]⟩
        Handler.serveAssets (ascii "/static/" ++ ascii "a.css") ≠
      some (Join (ascii "./public") (ascii "a.css")) := by
  refine ⟨?_, by decide, by decide, by decide⟩
  have e : (Init accepts ⟨Mode.ProductionMode, ascii "/static/", ascii "./public", none⟩
      ⟨none, []⟩).2 =
      Handle accepts ⟨some (Handler.FileServer (ascii "./public/..")), []⟩
        MuxRef.DefaultServeMux (ascii "/static/") Handler.serveAssets := rfl
  rw [e]
  unfold Handle
  have e2 : ((([] : List (MuxRef × GoString × Handler)).filter
      (fun r => r.1 == MuxRef.DefaultServeMux)).map (fun r => r.2.1)) = [] := rfl
  simp only [e2, h, if_true]
  rfl

theorem asset_root_is_parent_witness :
    classicMuxTest [] (ascii "/static/") = true ∧
      serve ⟨some (Handler.FileServer (ascii "./public/..")),
          [(MuxRef.DefaultServeMux, ascii "/static/", Handler.serveAssets)]⟩
          Handler.serveAssets (ascii "/static/" ++ ascii "a.css") =
        some (ascii "static/a.css") :=
  ⟨by decide, (asset_root_is_parent classicMuxTest (by decide)).2.1⟩

/-- The handler that `Init` registers, when `Init` returns: it is registered under
`AssetURL` on the mux of the configuration, and it serves every request as the
file server rooted at `AssetPath/..` does, with the URL path unchanged.  When the
elements of `AssetPath` end in `n` and `AssetURL` is `/n/`, a request for
`AssetURL ++ f`, for `f` made of ordinary elements, with a request path that does
not end in `/index.html`, is served from the file `f` of `AssetPath`. -/
theorem asset_mapping (accepts : MuxTest) (config : Config) (s s1 : Server)
    (h : (Init accepts config s).2 = some s1) :
    (∃ m, (Init accepts config s).1.ServeMux = some m ∧
      (m, (Init accepts config s).1.AssetURL, Handler.serveAssets) ∈ s1.routes) ∧
    (∀ u : GoString, serve s1 Handler.serveAssets u =
      openedFile ((Init accepts config s).1.AssetPath ++ ascii "/..") u) ∧
    (∀ (C : List GoString) (n : GoString) (F : List GoString),
      splitSlash (Init accepts config s).1.AssetPath = C ++ [n] →
      (Init accepts config s).1.AssetURL = (47 :: n ++ [47]) → ordinary n →
      F ≠ [] → (∀ c ∈ F, ordinary c) →
      hasSuffix ((Init accepts config s).1.AssetURL ++ joinSlash F) (ascii "/index.html") =
        false →
      serve s1 Handler.serveAssets ((Init accepts config s).1.AssetURL ++ joinSlash F) =
        some (Join (Init accepts config s).1.AssetPath (joinSlash F))) := by
  obtain ⟨m, hm, hfs, hr⟩ := Init_state accepts config s s1 h
  have hserve : ∀ u : GoString, serve s1 Handler.serveAssets u =
      openedFile ((Init accepts config s).1.AssetPath ++ ascii "/..") u := by
    intro u
    simp only [serve, hfs]
  refine ⟨⟨m, hm, hr⟩, hserve, ?_⟩
  intro C n F hP hU hn hne hF hidx
  rw [hserve, hU]
  rw [hU] at hidx
  exact openedFile_parent _ n C F hP hn hne hF hidx

theorem asset_mapping_witness :
    (Init classicMuxTest ⟨Mode.DevelopmentMode, [], [], none⟩ ⟨none, []⟩).2 =
        some ⟨some (Handler.FileServer (ascii "./assets/..")),
          [(MuxRef.DefaultServeMux, ascii "/assets/", Handler.serveAssets)]⟩ ∧
      serve ⟨some (Handler.FileServer (ascii "./assets/..")),
          [(MuxRef.DefaultServeMux, ascii "/assets/", Handler.serveAssets)]⟩
          Handler.serveAssets (ascii "/assets/" ++ joinSlash [ascii "css", ascii "a.css"]) =
        some (Join (ascii "./assets") (joinSlash [ascii "css", ascii "a.css"])) :=
  ⟨by decide,
    (asset_mapping classicMuxTest ⟨Mode.DevelopmentMode, [], [], none⟩ ⟨none, []⟩ _
      (by decide)).2.2
      [ascii "."] (ascii "assets") [ascii "css", ascii "a.css"]
      (by decide) (by decide) (by decide) (by decide) (by decide) (by decide)⟩

end Css
